import Mathlib

/-!
Verification development for the Learn resource downloader
(`LearnFileDownloader.py`).  Python strings are modelled as `List Char`
(sequences of code points), the filesystem as a list of existing path
strings, and `os.path` operations with POSIX (`posixpath`) semantics.
Python regular-expression patterns occurring in the source are compiled
by hand into backtracking matcher functions with Python `re` semantics
(leftmost match, lazy/greedy repetition with full backtracking).
-/

/-- Python strings are sequences of code points. -/
abbrev Str := List Char

/-- Exceptions the modelled code can raise at runtime. -/
inductive PyErr where
  | nameError
  | attributeError
  | typeError
  | fileNotFound
  | valueError
  deriving DecidableEq

/-- Filesystem side effects performed by the code, in program order. -/
inductive FsEff where
  | mkdir (p : Str)
  | append (p : Str)
  | write (p : Str)
  deriving DecidableEq

/-- Source line 37: `DEBUG = True`. -/
def DEBUG : Bool := true

/-- Source line 39: `MAX_FILE_NAME_LEN = 259`. -/
def MAX_FILE_NAME_LEN : Nat := 259

/-- Source line 40: `PATH_STORAGE_FN = "OrigFNames.txt"`. -/
def PATH_STORAGE_FN : Str := "OrigFNames.txt".toList

/-- Source line 41: `MAX_FOLDER_NAME_LEN = MAX_FILE_NAME_LEN - len(PATH_STORAGE_FN) - 1`. -/
def MAX_FOLDER_NAME_LEN : Nat := MAX_FILE_NAME_LEN - PATH_STORAGE_FN.length - 1

/-- Source line 43: the character class of `forbidden_fn_chars_re`,
`[:\*\?"<>\|]` — colon, star, question mark, double quote, angle
brackets, pipe.  Note it contains neither backslash nor slash. -/
def isForbiddenChar (c : Char) : Bool :=
  c = ':' || c = '*' || c = '?' || c = '"' || c = '<' || c = '>' || c = '|'

/-- `forbidden_fn_chars_re.sub('', s)`: a substitution of a single-character
class by the empty string removes exactly the characters of the class. -/
def forbiddenSub (s : Str) : Str := s.filter (fun c => !isForbiddenChar c)

/-- `re.sub(r'&amp;?', '&', s)`: each occurrence of `&amp;` (preferred,
the `;?` being greedy) or `&amp` is replaced by `&`; scanning is
leftmost and non-overlapping, resuming after the replaced text. -/
def ampSub : Str → Str
  | '&' :: 'a' :: 'm' :: 'p' :: ';' :: rest => '&' :: ampSub rest
  | '&' :: 'a' :: 'm' :: 'p' :: rest => '&' :: ampSub rest
  | c :: rest => c :: ampSub rest
  | [] => []

/-- Value of an ASCII hex digit. -/
def hexVal (c : Char) : Option Nat :=
  if '0' ≤ c ∧ c ≤ '9' then some (c.toNat - 48)
  else if 'a' ≤ c ∧ c ≤ 'f' then some (c.toNat - 87)
  else if 'A' ≤ c ∧ c ≤ 'F' then some (c.toNat - 70)
  else none

/-- `urllib.parse.unquote`: percent-decoding, modelled for single-byte
(ASCII-range) escapes; a `%` not followed by two hex digits is kept
verbatim, exactly as in Python.  (Multi-byte UTF-8 escape sequences are
outside the inputs exercised by any claim.) -/
def unquoteL : Str → Str
  | '%' :: h1 :: h2 :: rest =>
    match hexVal h1, hexVal h2 with
    | some v1, some v2 => Char.ofNat (16 * v1 + v2) :: unquoteL rest
    | _, _ => '%' :: unquoteL (h1 :: h2 :: rest)
  | c :: rest => c :: unquoteL rest
  | [] => []

/-- Decimal digit character. -/
def digitChar (d : Nat) : Char := Char.ofNat (48 + d)

/-- Fueled decimal rendering of a natural number (`f"{i}"` in Python). -/
def natToStrAux : Nat → Nat → Str
  | 0, _ => []
  | fuel + 1, n =>
    if n < 10 then [digitChar n]
    else natToStrAux fuel (n / 10) ++ [digitChar (n % 10)]

/-- Decimal rendering of a natural number, as Python `str(i)`. -/
def natToStr (n : Nat) : Str := natToStrAux (n + 1) n

/- ## POSIX path model (`os.path` as `posixpath`) -/

/-- `s.split('/')`. -/
def splitSlash : Str → List Str
  | [] => [[]]
  | c :: rest =>
    if c = '/' then [] :: splitSlash rest
    else
      match splitSlash rest with
      | h :: t => (c :: h) :: t
      | [] => [[c]]

/-- `'/'.join(parts)`. -/
def joinSlash : List Str → Str
  | [] => []
  | [p] => p
  | p :: rest => p ++ '/' :: joinSlash rest

/-- One step of `posixpath.normpath`'s component loop: append the
component unless it is `..`, in which case pop (or, for an absolute
path with an empty stack, drop it). -/
def npStep (isAbs : Bool) (acc : List Str) (comp : Str) : List Str :=
  if comp ≠ ['.', '.'] ∨ (¬isAbs ∧ acc = []) ∨ acc.getLast? = some ['.', '.'] then
    acc ++ [comp]
  else if acc ≠ [] then acc.dropLast
  else acc

/-- Number of leading slashes kept by `posixpath.normpath`: two iff the
path begins with exactly two slashes, else one iff it is absolute. -/
def leadSlashes (p : Str) : Nat :=
  if p.take 2 = ['/', '/'] ∧ p.take 3 ≠ ['/', '/', '/'] then 2
  else if p.take 1 = ['/'] then 1
  else 0

/-- The components kept by `normpath`'s loop: not empty, not `.`. -/
def npKeep (c : Str) : Bool := c ≠ [] ∧ c ≠ ['.']

/-- `posixpath.normpath`. -/
def normpathL (p : Str) : Str :=
  if p = [] then ['.']
  else
    let slashes := leadSlashes p
    let comps := (splitSlash p).filter npKeep
    let newComps := comps.foldl (npStep (slashes ≠ 0)) []
    let out := List.replicate slashes '/' ++ joinSlash newComps
    if out = [] then ['.'] else out

/-- `posixpath.join(a, b)` for the two-argument uses in the source. -/
def joinPath (a b : Str) : Str :=
  if b.take 1 = ['/'] then b
  else if a = [] ∨ a.getLast? = some '/' then a ++ b
  else a ++ '/' :: b

/-- `posixpath.abspath`, with the process working directory `cwd`
passed explicitly: `normpath(join(cwd, p))`. -/
def abspathL (cwd p : Str) : Str := normpathL (joinPath cwd p)

/-- Length of the common prefix of two component lists. -/
def commonPrefixLen : List Str → List Str → Nat
  | a :: as', b :: bs => if a = b then commonPrefixLen as' bs + 1 else 0
  | _, _ => 0

/-- `posixpath.relpath(p)` relative to the working directory; raises
`ValueError` on an empty path, as Python does. -/
def relpathE (cwd p : Str) : Except PyErr Str :=
  if p = [] then .error .valueError
  else
    let startList := (splitSlash (abspathL cwd ['.'])).filter (fun c => c ≠ [])
    let pathList := (splitSlash (abspathL cwd p)).filter (fun c => c ≠ [])
    let i := commonPrefixLen startList pathList
    let rel := List.replicate (startList.length - i) ['.', '.'] ++ pathList.drop i
    .ok (if rel = [] then ['.'] else joinSlash rel)

/- ## Backtracking regex combinators (Python `re` semantics)

Each Python pattern in the source is compiled by hand into a matcher
built from these combinators.  A matcher takes a continuation `k` that
consumes the rest of the input after the construct; backtracking is
realised by trying the preferred alternative first and falling back to
`k` orders exactly as Python's engine does (lazy = shortest first,
greedy = longest first, alternation = left first).  `.` does not match
a newline. -/

/-- Match a literal, returning the rest of the input. -/
def litP : Str → Str → Option Str
  | [], s => some s
  | _ :: _, [] => none
  | l :: lit, c :: s => if l = c then litP lit s else none

/-- Python character class `\s` (ASCII range). -/
def isPySpace (c : Char) : Bool :=
  c = ' ' || c = '\t' || c = '\n' || c = '\r' || c = '\x0b' || c = '\x0c'

/-- Python character class `\w` (ASCII range). -/
def isPyWord (c : Char) : Bool := c.isAlpha || c.isDigit || c = '_'

/-- Python character class `\d`. -/
def isPyDigit (c : Char) : Bool := c.isDigit

/-- `.*?lit` followed by the continuation: lazy scan that stops at the
earliest position where the literal and the whole continuation succeed;
`.` cannot cross a newline. -/
def lazyUpto (lit : Str) : (Str → Option α) → Str → Option α
  | _, [] => none
  | k, c :: rest =>
    match litP lit (c :: rest) with
    | some after =>
      match k after with
      | some r => some r
      | none => if c = '\n' then none else lazyUpto lit k rest
    | none => if c = '\n' then none else lazyUpto lit k rest

/-- `(.*?)lit` followed by the continuation `k capture rest`: as
`lazyUpto`, additionally returning the captured text. -/
def lazyCapUpto (lit : Str) : (Str → Str → Option α) → Str → Option α
  | _, [] => none
  | k, c :: rest =>
    match litP lit (c :: rest) with
    | some after =>
      match k [] after with
      | some r => some r
      | none =>
        if c = '\n' then none
        else lazyCapUpto lit (fun cap r => k (c :: cap) r) rest
    | none =>
      if c = '\n' then none
      else lazyCapUpto lit (fun cap r => k (c :: cap) r) rest

/-- Greedy star over a character predicate (`x*` for a one-character
atom `x`), trying the longest run first and backtracking. -/
def greedyStar (pred : Char → Bool) : (Str → Option α) → Str → Option α
  | k, [] => k []
  | k, c :: rest =>
    if pred c then
      match greedyStar pred k rest with
      | some r => some r
      | none => k (c :: rest)
    else k (c :: rest)

/-- Capturing greedy star over a character predicate. -/
def greedyCapStar (pred : Char → Bool) : (Str → Str → Option α) → Str → Option α
  | k, [] => k [] []
  | k, c :: rest =>
    if pred c then
      match greedyCapStar pred (fun cap r => k (c :: cap) r) rest with
      | some r => some r
      | none => k [] (c :: rest)
    else k [] (c :: rest)

/-- Capturing greedy plus (`(x+)`) over a character predicate. -/
def greedyCapPlus (pred : Char → Bool) (k : Str → Str → Option α) : Str → Option α
  | [] => none
  | c :: rest =>
    if pred c then greedyCapStar pred (fun cap r => k (c :: cap) r) rest
    else none

/-- Greedy `x?` over a character predicate: prefer consuming one. -/
def optChar (pred : Char → Bool) (k : Str → Option α) : Str → Option α
  | [] => k []
  | c :: rest =>
    if pred c then
      match k rest with
      | some r => some r
      | none => k (c :: rest)
    else k (c :: rest)

/-- `re.search` position scan: try the anchored matcher at every
position, left to right, including the end-of-text position. -/
def reSearch (m : Str → Option α) : Str → Option α
  | [] => m []
  | c :: rest =>
    match m (c :: rest) with
    | some r => some r
    | none => reSearch m (c :: rest |>.tail)

/-- `re.search` returning the span `(start, end)` of the first match:
the anchored matcher `m` returns the length it consumed. -/
def searchIdxAux (m : Str → Option Nat) : Str → Nat → Option (Nat × Nat)
  | s, pos =>
    match m s with
    | some len => some (pos, pos + len)
    | none =>
      match s with
      | [] => none
      | _ :: rest => searchIdxAux m rest (pos + 1)

/-- A compiled Python regex for the generic two-anchor extractor: the
anchored matcher at a position, returning the matched length. -/
abbrev PyRegex := Str → Option Nat

/-- `r.search(t, pos)` returning the span of the first match at or
after `pos`. -/
def searchFrom (r : PyRegex) (t : Str) (pos : Nat) : Option (Nat × Nat) :=
  searchIdxAux r (t.drop pos) pos

/- ## Models of the source functions -/

/-- Group 1 of `content_re = ([^;\s]*)(?:\s*;.*charset=(.*?)(?:\s|;|$))?`
(source lines 250-252): the class star can match empty, so `search`'s
leftmost match starts at position 0 and group 1 is the maximal run of
characters that are neither `;` nor whitespace. -/
def mediaTypeOf (ct : Str) : Str := ct.takeWhile (fun c => !(c = ';' || isPySpace c))

/-- Terminator `(?:\s|;|$)` of the charset group, tried lazily: a
whitespace or `;` branch first, `$` at the end of the text (`\s`
already covers a newline, so the before-trailing-newline case of `$`
is subsumed). -/
def charsetLazyCap : Str → Option Str
  | [] => some []
  | c :: rest =>
    if isPySpace c || c = ';' then some []
    else (charsetLazyCap rest).map (c :: ·)

/-- `.*charset=(.*?)(?:\s|;|$)` after the `;`: the greedy `.*` (which
cannot cross a newline) takes the last `charset=` occurrence for which
the remainder matches. -/
def charsetAfterSemi (s : Str) : Option Str :=
  greedyStar (fun c => c ≠ '\n')
    (fun r => (litP "charset=".toList r).bind charsetLazyCap) s

/-- The optional `(?:\s*;.*charset=...)?` group: `\s*` is greedy over a
one-character class, so it is the maximal whitespace run, then a `;`
must follow. -/
def charsetOpt (s : Str) : Option Str :=
  match s.dropWhile isPySpace with
  | ';' :: r => charsetAfterSemi r
  | _ => none

/-- `learnUserObj.get_content_type` (source lines 247-253); also inlined
in `download_file` (lines 454-457).  A missing Content-Type header is
`None` in Python and `content_re.search(None)` raises `TypeError`. -/
def get_content_type (ct : Option Str) : Except PyErr (Str × Option Str) :=
  match ct with
  | none => .error .typeError
  | some s => .ok (mediaTypeOf s, charsetOpt (s.dropWhile (fun c => !(c = ';' || isPySpace c))))

/-- Tail `\w*"` of `fn_re = filename="(.*?)\.\w*"`: the greedy word run
is maximal (shorter runs end at a word character, never `"`), then the
closing quote must follow. -/
def fnTailOk (s : Str) : Bool :=
  match s.dropWhile isPyWord with
  | '"' :: _ => true
  | _ => false

/-- The lazy `(.*?)\.` of `fn_re`: stop at the earliest `.` whose
`\w*"` tail matches; any other character (a `.` with a failing tail
included) is consumed by `.*?`, which cannot cross a newline. -/
def fnLazyCap : Str → Option Str
  | [] => none
  | c :: rest =>
    if c = '.' ∧ fnTailOk rest then some []
    else if c = '\n' then none
    else (fnLazyCap rest).map (c :: ·)

/-- `fn_re.search`: leftmost position where the whole pattern
`filename="(.*?)\.\w*"` matches, returning group 1. -/
def fnSearch : Str → Option Str
  | [] => none
  | c :: rest =>
    match litP "filename=\"".toList (c :: rest) with
    | some after =>
      match fnLazyCap after with
      | some cap => some cap
      | none => fnSearch rest
    | none => fnSearch rest

/-- `learnUserObj.get_filename` (source lines 256-267): group 1 of
`fn_re` on the Content-Disposition header if present (raising
`AttributeError` when the header is present but does not match), else
the portal display name; then percent-decode, then collapse `&amp;?`. -/
def get_filename (cd : Option Str) (learn_name : Str) : Except PyErr Str :=
  match cd with
  | none => .ok (ampSub (unquoteL learn_name))
  | some s =>
    match fnSearch s with
    | none => .error .attributeError
    | some g => .ok (ampSub (unquoteL g))

/-- `extract_between_res` (source lines 271-286): text strictly between
the end of the first match of `startRe` and the start of the first
match of `endRe` at or after it; `None` when either search fails. -/
def extract_between_res (html : Str) (startRe endRe : PyRegex) : Option Str :=
  match searchFrom startRe html 0 with
  | none => none
  | some (_, startIdx) =>
    match searchFrom endRe html startIdx with
    | none => none
    | some (endIdx, _) => some ((html.drop startIdx).take (endIdx - startIdx))

/-- `learn_url_re = https://learn\.canterbury\.ac\.nz/.*` used with
`re.match` (anchored at the start; the trailing `.*` always matches):
the condition is exactly a prefix test. -/
def isLearnUrl (url : Str) : Bool :=
  (litP "https://learn.canterbury.ac.nz/".toList url).isSome

/-- Anchored matcher for `dl_url_re = Click <a href="(.*?)">(.*?)\.pdf</a>
link to download the file\.` (source lines 403-405). -/
def pdfLinkAt (s : Str) : Option (Str × Str) :=
  (litP "Click <a href=\"".toList s).bind
    (lazyCapUpto "\">".toList (fun href =>
      lazyCapUpto ".pdf</a> link to download the file.".toList (fun nm _ =>
        some (href, nm))))

/-- `dl_url_re.search`. -/
def pdfLinkSearch : Str → Option (Str × Str) := reSearch pdfLinkAt

/-- `extract_pdf_url` (source lines 395-412): on a Learn URL, dump the
fetched page to `ouput.txt` (an unconditional filesystem write), then
extract the link, raising `AttributeError` when the sentence pattern is
absent; any other URL is returned unchanged without fetching. -/
def extract_pdf_url (url page : Str) : List FsEff × Except PyErr Str :=
  if isLearnUrl url then
    ([.write "ouput.txt".toList],
      match pdfLinkSearch page with
      | none => .error .attributeError
      | some (href, _) => .ok href)
  else ([], .ok url)

/-- The download-URL resolution of `download_file` (source lines
451-461): fetch headers only; when the media type of the Content-Type
is `text/html`, resolve through `extract_pdf_url`, else use the URL
directly. -/
def download_file_dlurl (headCT : Option Str) (url page : Str) :
    List FsEff × Except PyErr Str :=
  match headCT with
  | none => ([], .error .typeError)
  | some ct =>
    if mediaTypeOf ct = "text/html".toList then extract_pdf_url url page
    else ([], .ok url)

/-- Anchored matcher for `folder_re = <form.*?action="(.*?)" >\n.*?name="id"
value="(\d+)">` (source line 469).  Note the pattern demands the exact
text `" >` followed by a newline after the action attribute, and `.`
cannot cross newlines. -/
def folderFormAt (s : Str) : Option (Str × Str) :=
  (litP "<form".toList s).bind
    (lazyUpto "action=\"".toList
      (lazyCapUpto "\" >\n".toList (fun act =>
        lazyUpto "name=\"id\" value=\"".toList
          (greedyCapPlus isPyDigit (fun num r =>
            (litP "\">".toList r).map (fun _ => (act, num)))))))

/-- `folder_re.search`. -/
def folderFormSearch : Str → Option (Str × Str) := reSearch folderFormAt

/-- The archive-URL resolution of `download_folder` (source lines
466-474): `action?id=<id>` from the first form match, raising
`AttributeError` (`.group` on `None`) when the pattern is absent. -/
def download_folder_dlurl (page : Str) : Except PyErr Str :=
  match folderFormSearch page with
  | none => .error .attributeError
  | some (baseUrl, num) => .ok (baseUrl ++ "?id=".toList ++ num)

/-- Anchored matcher for `dl_re = <div role="main">.*?<h2>(.*?)</h2>.*?
href="(.*?)"` of `download_url` (source line 483). -/
def urlPageAt (s : Str) : Option (Str × Str) :=
  (litP "<div role=\"main\">".toList s).bind
    (lazyUpto "<h2>".toList
      (lazyCapUpto "</h2>".toList (fun title =>
        lazyUpto "href=\"".toList
          (lazyCapUpto "\"".toList (fun target _ => some (title, target))))))

/-- `dl_re.search`. -/
def urlPageSearch : Str → Option (Str × Str) := reSearch urlPageAt

/-- `download_url` (source lines 480-503): extract a title and target
from the landing page (raising `AttributeError` when the pattern is
absent), build `<target_dest>/Single Files//<title>.url`, strip
forbidden characters (with a warning when anything changed), then —
with no check of the debug flag — create the destination directory if
missing and write the shortcut file.  Returns the effect list and the
final absolute destination. -/
def download_url (cwd : Str) (fs : List Str) (page : Str)
    (target_dest _learn_name : Str) : Except PyErr (List FsEff × Str × Bool) := do
  let (title, _target) ←
    match urlPageSearch page with
    | none => Except.error PyErr.attributeError
    | some tt => Except.ok tt
  let td := target_dest ++ "/Single Files/".toList
  let dest ← relpathE cwd (td ++ '/' :: (title ++ ".url".toList))
  let dest2 ← relpathE cwd (forbiddenSub dest)
  let warned := decide (dest ≠ dest2)
  let absTd := abspathL cwd td
  let effs1 : List FsEff := if absTd ∈ fs then [] else [.mkdir absTd]
  let destF := abspathL cwd dest2
  return (effs1 ++ [.write destF], destF, warned)

/-- The media-type table `FILE_EXT_MAP` imported from `extension_map`
(an external collaborator of the spec, queried read-only): media type
to either an extension or the explicit no-extension marker `None`. -/
abbrev ExtMap := Str → Option (Option Str)

/-- `downloadFile` lines 172-189: resolve the extension from the
response Content-Type.  When the media type is absent from
`FILE_EXT_MAP` or maps to `None`, the unknown-type warning's f-string
references `content_type` — a name never bound inside `downloadFile`
(the parsed value lives in `media_type`) — so that branch raises
`NameError` before anything is saved. -/
def resolveExt (extMap : ExtMap) (ct : Option Str) : Except PyErr Str := do
  let (media, _enc) ← get_content_type ct
  match extMap media with
  | some (some ext) => Except.ok ext
  | _ => Except.error PyErr.nameError

/-- Result of a completed `downloadFile` run. -/
structure DLRes where
  dest : Str
  destFolder : Str
  fullFn : Str
  charWarned : Bool
  lenWarned : Bool
  deriving DecidableEq

/-- `downloadFile` lines 191-210: collapse `&amp;?`, percent-decode and
absolutise the folder, build the destination, and strip the forbidden
characters from the relative path; when stripping changed it, warn and
rebuild folder, filename and destination from their stripped forms. -/
def sanitizeStage (cwd : Str) (dest_folder full_fn : Str) :
    Except PyErr (Str × Str × Str × Bool) := do
  let df0 := abspathL cwd (unquoteL (ampSub dest_folder))
  let dest0 := abspathL cwd (df0 ++ '/' :: full_fn)
  let relPath ← relpathE cwd dest0
  let relPath2 ← relpathE cwd (forbiddenSub relPath)
  if relPath ≠ relPath2 then
    let rdf ← relpathE cwd df0
    let df1 := abspathL cwd (forbiddenSub rdf)
    let fn1 := forbiddenSub full_fn
    return (df1, fn1, abspathL cwd (df1 ++ '/' :: fn1), true)
  else
    return (df0, full_fn, dest0, false)

/-- `downloadFile` lines 213-215: truncate the folder to
`MAX_FOLDER_NAME_LEN` characters and rebuild the destination. -/
def truncStage (cwd : Str) (df fn dest : Str) : Str × Str :=
  if df.length > MAX_FOLDER_NAME_LEN then
    let t := df.take MAX_FOLDER_NAME_LEN
    (t, abspathL cwd (t ++ '/' :: fn))
  else (df, dest)

/-- The name probed by the `while os.path.exists(f"{dest_folder}/rn{i}")`
loop (source line 221): bare `rn<i>`, without any extension. -/
def rnPath (folder : Str) (i : Nat) : Str := folder ++ "/rn".toList ++ natToStr i

/-- The rename loop with explicit fuel; `fs.length + 1` probes always
suffice to leave the unbounded `while` of the source (pigeonhole,
proved below), so `firstFree` computes the same index. -/
def firstFreeAux (fs : List Str) (folder : Str) : Nat → Nat → Nat
  | 0, i => i
  | fuel + 1, i =>
    if rnPath folder i ∈ fs then firstFreeAux fs folder fuel (i + 1) else i

/-- `downloadFile` lines 220-222: the first index `i ≥ 1` (in probing
order) whose bare name `rn<i>` does not exist in the folder. -/
def firstFree (fs : List Str) (folder : Str) : Nat :=
  firstFreeAux fs folder (fs.length + 1) 1

/-- `downloadFile` lines 217-229: when the destination is still over
`MAX_FILE_NAME_LEN`, replace the filename with `rn<i>` plus the
resolved extension (`is_known_type` necessarily holds here: the
unknown-type branch already raised `NameError`) and rebuild the
destination. -/
def renameStage (cwd : Str) (fs : List Str) (df fn dest ext : Str) : Str × Str :=
  if dest.length > MAX_FILE_NAME_LEN then
    let i := firstFree fs df
    let fn' := "rn".toList ++ natToStr i ++ '.' :: ext
    (fn', abspathL cwd (df ++ '/' :: fn'))
  else (fn, dest)

/-- `downloadFile` lines 231-244: create the folder unless it exists
(only when the debug flag is off); when the destination changed, append
the mapping line to the side-car file regardless of the debug flag —
which raises `FileNotFoundError` when the folder is missing and was not
created (debug on); finally write the destination file (only when the
debug flag is off). -/
def effectsStage (debug : Bool) (cwd : Str) (fs : List Str)
    (df origPath dest : Str) : Except PyErr (List FsEff) := do
  let effs1 : List FsEff := if df ∉ fs ∧ debug = false then [.mkdir df] else []
  let effs2 ←
    if origPath ≠ dest then
      if df ∈ fs ∨ debug = false then
        Except.ok (effs1 ++ [.append (abspathL cwd (df ++ '/' :: PATH_STORAGE_FN))])
      else Except.error PyErr.fileNotFound
    else Except.ok effs1
  return if debug = false then effs2 ++ [.write dest] else effs2

/-- `learnUserObj.downloadFile` (source lines 165-244), parameterised by
the debug flag, the working directory, the set of existing paths, the
media-type table and the two response headers. -/
def downloadFile (debug : Bool) (cwd : Str) (fs : List Str) (extMap : ExtMap)
    (ct cd : Option Str) (dest_folder learn_name : Str) :
    Except PyErr (List FsEff × DLRes) := do
  let filename ← get_filename cd learn_name
  let ext ← resolveExt extMap ct
  let full_fn := filename ++ '.' :: ext
  let (df1, fn1, dest1, charW) ← sanitizeStage cwd dest_folder full_fn
  let origPath := dest1
  let (df2, dest2) := truncStage cwd df1 fn1 dest1
  let (fn3, dest3) := renameStage cwd fs df2 fn1 dest2 ext
  let effs ← effectsStage debug cwd fs df2 origPath dest3
  return (effs, ⟨dest3, df2, fn3, charW, decide (origPath ≠ dest3)⟩)

/-- `get_type` (source lines 368-392): map the alt-text item kind to the
dispatch tag, `none` for unknown kinds (the item is then ignored).  The
`file_type == ''` comparison on line 370 only logs and can in fact
never be true: group 2 is `None` (not `''`) when the `icon` alternative
matched, and `\w+` never captures an empty string. -/
def get_type (item_type : Str) (_file_type : Option Str) (_url : Str) : Option Str :=
  if item_type = "File".toList then some "file".toList
  else if item_type = "Folder".toList then some "folder".toList
  else if item_type = "URL".toList then some "url".toList
  else if item_type = "Page".toList then some "page".toList
  else if item_type = "Course Material".toList then some "material".toList
  else none

/-- The literal `table_str_s` (source line 344). -/
def tableStartLit : Str :=
  "<div role=\"main\"><span id=\"maincontent\"></span><table class=\"generaltable mod_index\">".toList

/-- Anchored matcher for `table_str_s`, a pure literal. -/
def tableStartRe : PyRegex := fun s =>
  (litP tableStartLit s).map (fun _ => tableStartLit.length)

/-- `\n*</div>`: greedy newlines with backtracking, then the literal;
returns the matched length. -/
def nlStarDivLen : Str → Option Nat
  | '\n' :: rest =>
    (match nlStarDivLen rest with
     | some n => some (n + 1)
     | none => (litP "</div>".toList ('\n' :: rest)).map (fun _ => 6))
  | s => (litP "</div>".toList s).map (fun _ => 6)

/-- Anchored matcher for `table_str_e = </table>\n*</div>` (line 345). -/
def tableEndRe : PyRegex := fun s =>
  (litP "</table>".toList s).bind (fun r => (nlStarDivLen r).map (fun n => 8 + n))

/-- The literal opening of `cell_str` (source line 346). -/
def cellOpenLit : Str := "<td class=\"cell c1\" style=\"text-align:left;\">".toList

/-- Anchored matcher for `cell_str = <td class="cell c1"
style="text-align:left;">(.*?)</td>`: group 1 and the text after the
match. -/
def cellAt (s : Str) : Option (Str × Str) :=
  (litP cellOpenLit s).bind
    (lazyCapUpto "</td>".toList (fun cap after => some (cap, after)))

/-- `cell_re.findall` with explicit fuel: each step either consumes a
whole (nonempty) match or skips one character, so `s.length + 1` steps
always suffice. -/
def cellFindallAux : Nat → Str → List Str
  | 0, _ => []
  | fuel + 1, s =>
    match cellAt s with
    | some (cap, after) => cap :: cellFindallAux fuel after
    | none =>
      match s with
      | [] => []
      | _ :: rest => cellFindallAux fuel rest

/-- `cell_re.findall(table_text)` (source line 355): the group-1
captures of all non-overlapping leftmost matches. -/
def cellFindall (s : Str) : List Str := cellFindallAux (s.length + 1) s

/-- Character class `[\w|\s]` of `text_str` (source line 347). -/
def isAltChar (c : Char) : Bool := isPyWord c || c = '|' || isPySpace c

/-- Continuation of `text_str` after the icon alternation: `".*alt="
([\w|\s]*)" />\s?(.+)</a>`. -/
def textAfterType (url : Str) (ftype : Option Str) (r : Str) :
    Option (Str × Option Str × Str × Str) :=
  (litP "\"".toList r).bind
    (greedyStar (fun c => c ≠ '\n') (fun r2 =>
      (litP "alt=\"".toList r2).bind
        (greedyCapStar isAltChar (fun alt r3 =>
          (litP "\" />".toList r3).bind
            (optChar isPySpace
              (greedyCapPlus (fun c => c ≠ '\n') (fun nm r4 =>
                (litP "</a>".toList r4).map (fun _ => (url, ftype, alt, nm)))))))))

/-- The alternation `/(?:icon|f/(\w+))` of `text_str`: the left branch
first, with full backtracking into the continuation. -/
def textAfterSlash (url : Str) (r : Str) : Option (Str × Option Str × Str × Str) :=
  match (litP "icon".toList r).bind (textAfterType url none) with
  | some res => some res
  | none =>
    (litP "f/".toList r).bind
      (greedyCapPlus isPyWord (fun ft => textAfterType url (some ft)))

/-- Anchored matcher for `text_str = href="(.*)".*src=".*/(?:icon|f/
(\w+))".*alt="([\w|\s]*)" />\s?(.+)</a>` (source line 347): groups
(url, file type, item kind, display name). -/
def textReAt (s : Str) : Option (Str × Option Str × Str × Str) :=
  (litP "href=\"".toList s).bind
    (greedyCapStar (fun c => c ≠ '\n') (fun url r =>
      (litP "\"".toList r).bind
        (greedyStar (fun c => c ≠ '\n') (fun r2 =>
          (litP "src=\"".toList r2).bind
            (greedyStar (fun c => c ≠ '\n') (fun r3 =>
              (litP "/".toList r3).bind (textAfterSlash url)))))))

/-- `text_re.search`. -/
def textReSearch : Str → Option (Str × Option Str × Str × Str) := reSearch textReAt

/-- `extract_download_info` (source lines 324-365): isolate the resource
table (a `None` table raises `TypeError` inside `findall`), split it
into `c1` cells, and parse each cell, raising `AttributeError`
(`.group` on `None`) when a cell does not match `text_str`.  Each
descriptor is `(type, url, learn_name)`. -/
def extract_download_info (page : Str) :
    Except PyErr (List (Option Str × Str × Str)) :=
  match extract_between_res page tableStartRe tableEndRe with
  | none => Except.error PyErr.typeError
  | some tableText =>
    (cellFindall tableText).mapM (fun cell =>
      match textReSearch cell with
      | none => Except.error PyErr.attributeError
      | some (url, ftype, itype, nm) => Except.ok (get_type itype ftype url, url, nm))

/- ## Lemmas about decimal rendering and the rename loop -/

theorem valDigit_digitChar {d : Nat} (h : d < 10) : (digitChar d).toNat - 48 = d := by
  interval_cases d <;> decide

theorem isDigit_digitChar {d : Nat} (h : d < 10) : (digitChar d).isDigit = true := by
  interval_cases d <;> decide

/-- Decimal value of a digit string. -/
def valDigits (l : Str) : Nat := l.foldl (fun a c => 10 * a + (c.toNat - 48)) 0

theorem valDigits_append_singleton (l : Str) (c : Char) :
    valDigits (l ++ [c]) = 10 * valDigits l + (c.toNat - 48) := by
  simp [valDigits, List.foldl_append]

theorem valDigits_natToStrAux : ∀ (fuel n : Nat), n < fuel →
    valDigits (natToStrAux fuel n) = n := by
  intro fuel
  induction fuel with
  | zero => omega
  | succ f ih =>
    intro n hn
    by_cases h : n < 10
    · simp [natToStrAux, h, valDigits, valDigit_digitChar h]
    · have hdiv : n / 10 < f := by
        have := Nat.div_lt_self (by omega : 0 < n) (by omega : 1 < 10)
        omega
      simp only [natToStrAux, if_neg h]
      rw [valDigits_append_singleton, ih _ hdiv,
        valDigit_digitChar (Nat.mod_lt _ (by omega))]
      omega

theorem valDigits_natToStr (n : Nat) : valDigits (natToStr n) = n :=
  valDigits_natToStrAux (n + 1) n (Nat.lt_succ_self n)

theorem natToStr_injective : Function.Injective natToStr := by
  intro a b h
  have := valDigits_natToStr a
  rw [h, valDigits_natToStr] at this
  omega

theorem natToStrAux_digits : ∀ (fuel n : Nat), n < fuel →
    ∀ c ∈ natToStrAux fuel n, c.isDigit = true := by
  intro fuel
  induction fuel with
  | zero => omega
  | succ f ih =>
    intro n hn c hc
    by_cases h : n < 10
    · simp [natToStrAux, h] at hc
      subst hc; exact isDigit_digitChar h
    · have hdiv : n / 10 < f := by
        have := Nat.div_lt_self (by omega : 0 < n) (by omega : 1 < 10)
        omega
      simp only [natToStrAux, if_neg h, List.mem_append, List.mem_singleton] at hc
      rcases hc with hc | hc
      · exact ih _ hdiv c hc
      · subst hc; exact isDigit_digitChar (Nat.mod_lt _ (by omega))

theorem natToStr_digits (n : Nat) : ∀ c ∈ natToStr n, c.isDigit = true :=
  natToStrAux_digits (n + 1) n (Nat.lt_succ_self n)

theorem natToStr_ne_nil (n : Nat) : natToStr n ≠ [] := by
  intro h
  have h10 : ∀ fuel m, m < fuel → natToStrAux fuel m ≠ [] := by
    intro fuel
    induction fuel with
    | zero => omega
    | succ f ih =>
      intro m hm
      by_cases h' : m < 10 <;> simp [natToStrAux, h']
  exact h10 (n + 1) n (Nat.lt_succ_self n) h

theorem rnPath_injective (folder : Str) : Function.Injective (rnPath folder) := by
  intro a b h
  apply natToStr_injective
  simpa [rnPath] using h

theorem firstFreeAux_min (fs : List Str) (folder : Str) :
    ∀ (fuel i j : Nat), i ≤ j → j < firstFreeAux fs folder fuel i →
      rnPath folder j ∈ fs := by
  intro fuel
  induction fuel with
  | zero => intro i j hij hj; simp [firstFreeAux] at hj; omega
  | succ f ih =>
    intro i j hij hj
    simp only [firstFreeAux] at hj
    by_cases hmem : rnPath folder i ∈ fs
    · rw [if_pos hmem] at hj
      rcases Nat.eq_or_lt_of_le hij with h | h
      · subst h; exact hmem
      · exact ih (i + 1) j h hj
    · rw [if_neg hmem] at hj; omega

theorem firstFreeAux_free (fs : List Str) (folder : Str) :
    ∀ (fuel i : Nat), (∃ k, k < fuel ∧ rnPath folder (i + k) ∉ fs) →
      rnPath folder (firstFreeAux fs folder fuel i) ∉ fs := by
  intro fuel
  induction fuel with
  | zero => rintro i ⟨k, hk, -⟩; omega
  | succ f ih =>
    rintro i ⟨k, hk, hfree⟩
    simp only [firstFreeAux]
    by_cases hmem : rnPath folder i ∈ fs
    · rw [if_pos hmem]
      apply ih
      rcases Nat.eq_zero_or_pos k with h0 | h0
      · subst h0; simp at hfree; exact absurd hmem hfree
      · refine ⟨k - 1, by omega, ?_⟩
        have heq : i + 1 + (k - 1) = i + k := by omega
        rw [heq]; exact hfree
    · rw [if_neg hmem]; exact hmem

/-- Pigeonhole: among `rn1 … rn(|fs|+1)` some bare name is absent. -/
theorem exists_free_rnPath (fs : List Str) (folder : Str) :
    ∃ k, k < fs.length + 1 ∧ rnPath folder (1 + k) ∉ fs := by
  by_contra hall
  push_neg at hall
  have hsub : ∀ x ∈ (List.range (fs.length + 1)).map (fun k => rnPath folder (1 + k)),
      x ∈ fs := by
    intro x hx
    simp only [List.mem_map, List.mem_range] at hx
    obtain ⟨k, hk, rfl⟩ := hx
    exact hall k hk
  have hnd : ((List.range (fs.length + 1)).map (fun k => rnPath folder (1 + k))).Nodup := by
    refine List.Nodup.map ?_ (List.nodup_range _)
    intro a b h
    have := rnPath_injective folder h
    omega
  have hlen : ((List.range (fs.length + 1)).map
      (fun k => rnPath folder (1 + k))).length = fs.length + 1 := by simp
  have h1 : (fs.length + 1 : Nat) ≤ fs.length := by
    calc (fs.length + 1 : Nat)
        = ((List.range (fs.length + 1)).map (fun k => rnPath folder (1 + k))).length := hlen.symm
      _ = ((List.range (fs.length + 1)).map
            (fun k => rnPath folder (1 + k))).toFinset.card :=
          (List.toFinset_card_of_nodup hnd).symm
      _ ≤ fs.toFinset.card := by
          apply Finset.card_le_card
          intro x hx
          rw [List.mem_toFinset] at hx ⊢
          exact hsub x hx
      _ ≤ fs.length := List.toFinset_card_le fs
  omega

/-- The index chosen by the rename loop names a bare `rn<i>` that does
not exist in the folder. -/
theorem firstFree_free (fs : List Str) (folder : Str) :
    rnPath folder (firstFree fs folder) ∉ fs := by
  obtain ⟨k, hk, hfree⟩ := exists_free_rnPath fs folder
  exact firstFreeAux_free fs folder (fs.length + 1) 1 ⟨k, hk, hfree⟩

/-- The index chosen by the rename loop is the smallest whose bare
`rn<i>` does not exist in the folder. -/
theorem firstFree_min (fs : List Str) (folder : Str) :
    ∀ j, 1 ≤ j → j < firstFree fs folder → rnPath folder j ∈ fs :=
  fun j h1 h2 => firstFreeAux_min fs folder (fs.length + 1) 1 j h1 h2

/- ## Lemmas about the POSIX path model -/

/-- Combined length of components plus one separator each. -/
def totalLen (l : List Str) : Nat := (l.map (fun c => c.length + 1)).sum

theorem totalLen_nil : totalLen [] = 0 := rfl

theorem totalLen_cons (c : Str) (l : List Str) :
    totalLen (c :: l) = c.length + 1 + totalLen l := by
  simp [totalLen]

theorem totalLen_append (a b : List Str) :
    totalLen (a ++ b) = totalLen a + totalLen b := by
  simp [totalLen]

theorem splitSlash_ne_nil (p : Str) : splitSlash p ≠ [] := by
  cases p with
  | nil => simp [splitSlash]
  | cons c rest =>
    simp only [splitSlash]
    split
    · simp
    · split <;> simp

theorem totalLen_splitSlash (p : Str) : totalLen (splitSlash p) = p.length + 1 := by
  induction p with
  | nil => simp [splitSlash, totalLen]
  | cons c rest ih =>
    simp only [splitSlash]
    split
    · rw [totalLen_cons]; simp [ih]; omega
    · cases hs : splitSlash rest with
      | nil => exact absurd hs (splitSlash_ne_nil rest)
      | cons h' t' =>
        rw [hs] at ih
        rw [totalLen_cons]
        rw [totalLen_cons] at ih
        simp only [List.length_cons]
        omega

theorem totalLen_dropLast_le (l : List Str) : totalLen l.dropLast ≤ totalLen l := by
  induction l with
  | nil => simp
  | cons c t ih =>
    cases t with
    | nil => simp [totalLen]
    | cons d t' =>
      rw [List.dropLast_cons₂, totalLen_cons, totalLen_cons]
      omega

theorem totalLen_filter_le (pred : Str → Bool) (l : List Str) :
    totalLen (l.filter pred) ≤ totalLen l := by
  induction l with
  | nil => simp
  | cons c t ih =>
    by_cases h : pred c
    · rw [List.filter_cons_of_pos h, totalLen_cons, totalLen_cons]; omega
    · rw [List.filter_cons_of_neg (by simpa using h), totalLen_cons]; omega

theorem totalLen_npStep_le (b : Bool) (acc : List Str) (c : Str) :
    totalLen (npStep b acc c) ≤ totalLen acc + (c.length + 1) := by
  unfold npStep
  split
  · rw [totalLen_append, totalLen_cons, totalLen_nil]
  · split
    · have := totalLen_dropLast_le acc; omega
    · omega

theorem totalLen_foldl_npStep (b : Bool) :
    ∀ (l : List Str) (acc : List Str),
      totalLen (List.foldl (npStep b) acc l) ≤ totalLen acc + totalLen l := by
  intro l
  induction l with
  | nil => intro acc; simp
  | cons c t ih =>
    intro acc
    rw [List.foldl_cons, totalLen_cons]
    calc totalLen (List.foldl (npStep b) (npStep b acc c) t)
        ≤ totalLen (npStep b acc c) + totalLen t := ih _
      _ ≤ (totalLen acc + (c.length + 1)) + totalLen t := by
          have := totalLen_npStep_le b acc c; omega
      _ = totalLen acc + (c.length + 1 + totalLen t) := by omega

theorem joinSlash_length (l : List Str) (h : l ≠ []) :
    (joinSlash l).length + 1 = totalLen l := by
  induction l with
  | nil => exact absurd rfl h
  | cons c t ih =>
    cases t with
    | nil => simp [joinSlash, totalLen]
    | cons d t' =>
      rw [totalLen_cons]
      have hne : d :: t' ≠ [] := by simp
      simp only [joinSlash]
      rw [← ih hne]
      simp
      omega

theorem cons_of_take_one {p : Str} (h : p.take 1 = ['/']) : ∃ rest, p = '/' :: rest := by
  cases p with
  | nil => simp at h
  | cons c r =>
    have hc : c = '/' := by simpa using h
    exact ⟨r, by rw [hc]⟩

/-- For an absolute path the kept slash count is 1 or 2, the latter
exactly when the path starts with two slashes. -/
theorem leadSlashes_cases {p : Str} (h : p.take 1 = ['/']) :
    leadSlashes p = 1 ∨ (leadSlashes p = 2 ∧ ∃ r2, p = '/' :: '/' :: r2) := by
  by_cases h2 : p.take 2 = ['/', '/'] ∧ p.take 3 ≠ ['/', '/', '/']
  · right
    refine ⟨by simp [leadSlashes, h2], ?_⟩
    obtain ⟨rest, rfl⟩ := cons_of_take_one h
    have h21 := h2.1
    cases rest with
    | nil => simp at h21
    | cons c r =>
      have hc : c = '/' := by simpa using h21
      exact ⟨r, by rw [hc]⟩
  · left; simp [leadSlashes, h2, h]

theorem normpathL_ne_nil (p : Str) : normpathL p ≠ [] := by
  unfold normpathL
  split
  · simp
  · dsimp only
    split
    · simp
    · assumption

theorem normpathL_take_one {p : Str} (h : p.take 1 = ['/']) :
    (normpathL p).take 1 = ['/'] := by
  obtain ⟨rest, rfl⟩ := cons_of_take_one h
  have hs : 1 ≤ leadSlashes ('/' :: rest) := by
    rcases leadSlashes_cases h with h1 | ⟨h2, -⟩ <;> omega
  unfold normpathL
  rw [if_neg (by simp)]
  dsimp only
  obtain ⟨m, hm⟩ : ∃ m, leadSlashes ('/' :: rest) = m + 1 :=
    ⟨leadSlashes ('/' :: rest) - 1, by omega⟩
  rw [hm, List.replicate_succ]
  simp

/-- Dropping the leading empty component of an absolute path's split. -/
theorem filter_splitSlash_slash (rest : Str) :
    (splitSlash ('/' :: rest)).filter npKeep =
      (splitSlash rest).filter npKeep := by
  have : splitSlash ('/' :: rest) = [] :: splitSlash rest := by simp [splitSlash]
  rw [this, List.filter_cons_of_neg (by simp [npKeep])]

theorem totalLen_filter_splitSlash (q : Str) :
    totalLen ((splitSlash q).filter npKeep) ≤ q.length + 1 :=
  le_trans (totalLen_filter_le _ _) (le_of_eq (totalLen_splitSlash q))

/-- `normpath` never lengthens an absolute path. -/
theorem normpathL_length_le {p : Str} (h : p.take 1 = ['/']) :
    (normpathL p).length ≤ p.length := by
  obtain ⟨rest, rfl⟩ := cons_of_take_one h
  -- slashes plus total component length is at most `p.length + 1`,
  -- and slashes is at most `p.length`
  have hkey : leadSlashes ('/' :: rest) +
      totalLen ((splitSlash ('/' :: rest)).filter npKeep) ≤
        ('/' :: rest).length + 1 ∧ leadSlashes ('/' :: rest) ≤ ('/' :: rest).length := by
    rcases leadSlashes_cases h with h1 | ⟨h2, r2, hr⟩
    · rw [h1, filter_splitSlash_slash]
      have := totalLen_filter_splitSlash rest
      simp only [List.length_cons]
      omega
    · obtain ⟨rest2, hrest⟩ : ∃ q, rest = '/' :: q := by
        have := hr
        cases rest with
        | nil => simp at this
        | cons c r =>
          have hc : c = '/' := by
            have := (List.cons.injEq .. ▸ this :
              '/' = '/' ∧ c :: r = '/' :: r2) |>.2
            simpa using congrArg (List.take 1) this
          exact ⟨r, by rw [hc]⟩
      subst hrest
      rw [h2, filter_splitSlash_slash, filter_splitSlash_slash]
      have := totalLen_filter_splitSlash rest2
      simp only [List.length_cons]
      omega
  unfold normpathL
  rw [if_neg (by simp)]
  dsimp only
  have hfold := totalLen_foldl_npStep (leadSlashes ('/' :: rest) ≠ 0)
    ((splitSlash ('/' :: rest)).filter npKeep) []
  rw [totalLen_nil] at hfold
  set nc := ((splitSlash ('/' :: rest)).filter npKeep).foldl
    (npStep (leadSlashes ('/' :: rest) ≠ 0)) [] with hnc
  split
  · simp only [List.length_cons, List.length_nil]
    omega
  · rw [List.length_append, List.length_replicate]
    by_cases hncnil : nc = []
    · rw [hncnil]
      simp only [joinSlash, List.length_nil]
      omega
    · have hjl := joinSlash_length nc hncnil
      omega

theorem mem_splitSlash {p : Str} :
    ∀ comp ∈ splitSlash p, ∀ c ∈ comp, c ∈ p := by
  induction p with
  | nil => intro comp hc c hcc; simp [splitSlash] at hc; subst hc; simp at hcc
  | cons d rest ih =>
    intro comp hc c hcc
    simp only [splitSlash] at hc
    by_cases hd : d = '/'
    · rw [if_pos hd] at hc
      rcases List.mem_cons.mp hc with h | h
      · subst h; simp at hcc
      · exact List.mem_cons_of_mem _ (ih comp h c hcc)
    · rw [if_neg hd] at hc
      cases hs : splitSlash rest with
      | nil => exact absurd hs (splitSlash_ne_nil rest)
      | cons h' t' =>
        rw [hs] at hc
        rcases List.mem_cons.mp hc with h | h
        · subst h
          rcases List.mem_cons.mp hcc with h | h
          · subst h; simp
          · exact List.mem_cons_of_mem _ (ih h' (hs ▸ List.mem_cons_self h' t') c h)
        · exact List.mem_cons_of_mem _ (ih comp (hs ▸ List.mem_cons_of_mem h' h) c hcc)

theorem mem_joinSlash {l : List Str} :
    ∀ c ∈ joinSlash l, c = '/' ∨ ∃ comp ∈ l, c ∈ comp := by
  induction l with
  | nil => intro c hc; simp [joinSlash] at hc
  | cons p rest ih =>
    intro c hc
    cases rest with
    | nil =>
      simp only [joinSlash] at hc
      exact Or.inr ⟨p, List.mem_cons_self p [], hc⟩
    | cons q t =>
      simp only [joinSlash, List.mem_append, List.mem_cons] at hc
      rcases hc with h | h | h
      · exact Or.inr ⟨p, List.mem_cons_self p _, h⟩
      · exact Or.inl h
      · rcases ih c h with h' | ⟨comp, hcm, hcc⟩
        · exact Or.inl h'
        · exact Or.inr ⟨comp, List.mem_cons_of_mem _ hcm, hcc⟩

theorem mem_foldl_npStep (b : Bool) :
    ∀ (l acc : List Str) (x : Str), x ∈ List.foldl (npStep b) acc l →
      x ∈ acc ∨ x ∈ l := by
  intro l
  induction l with
  | nil => intro acc x hx; simp at hx; exact Or.inl hx
  | cons c t ih =>
    intro acc x hx
    rw [List.foldl_cons] at hx
    rcases ih (npStep b acc c) x hx with h | h
    · unfold npStep at h
      split at h
      · rcases List.mem_append.mp h with h' | h'
        · exact Or.inl h'
        · simp at h'; subst h'; exact Or.inr (List.mem_cons_self _ _)
      · split at h
        · exact Or.inl (List.mem_of_mem_dropLast h)
        · exact Or.inl h
    · exact Or.inr (List.mem_cons_of_mem _ h)

/-- Every character of `normpath p` is a character of `p`, a slash, or
a dot. -/
theorem mem_normpathL {p : Str} :
    ∀ c ∈ normpathL p, c ∈ p ∨ c = '/' ∨ c = '.' := by
  intro c hc
  unfold normpathL at hc
  split at hc
  · simp at hc; right; right; exact hc
  · dsimp only at hc
    split at hc
    · simp at hc; right; right; exact hc
    · rcases List.mem_append.mp hc with h | h
      · right; left; exact List.eq_of_mem_replicate h
      · rcases mem_joinSlash c h with h' | ⟨comp, hcm, hcc⟩
        · right; left; exact h'
        · rcases mem_foldl_npStep _ _ [] comp hcm with h'' | h''
          · simp at h''
          · left
            exact mem_splitSlash comp (List.mem_of_mem_filter h'') c hcc

theorem mem_joinPath {a b : Str} :
    ∀ c ∈ joinPath a b, c ∈ a ∨ c ∈ b ∨ c = '/' := by
  intro c hc
  unfold joinPath at hc
  split at hc
  · exact Or.inr (Or.inl hc)
  · split at hc
    · rcases List.mem_append.mp hc with h | h
      · exact Or.inl h
      · exact Or.inr (Or.inl h)
    · rcases List.mem_append.mp hc with h | h
      · exact Or.inl h
      · rcases List.mem_cons.mp h with h' | h'
        · exact Or.inr (Or.inr h')
        · exact Or.inr (Or.inl h')

/-- Every character of `abspath cwd p` is a character of `cwd` or `p`,
a slash, or a dot. -/
theorem mem_abspathL {cwd p : Str} :
    ∀ c ∈ abspathL cwd p, c ∈ cwd ∨ c ∈ p ∨ c = '/' ∨ c = '.' := by
  intro c hc
  rcases mem_normpathL c hc with h | h | h
  · rcases mem_joinPath c h with h' | h' | h'
    · exact Or.inl h'
    · exact Or.inr (Or.inl h')
    · exact Or.inr (Or.inr (Or.inl h'))
  · exact Or.inr (Or.inr (Or.inl h))
  · exact Or.inr (Or.inr (Or.inr h))

/-- An absolute path is unchanged by `join`, so its `abspath` is its
`normpath`. -/
theorem abspathL_absolute {cwd p : Str} (h : p.take 1 = ['/']) :
    abspathL cwd p = normpathL p := by
  unfold abspathL joinPath
  rw [if_pos h]

theorem abspathL_length_le {cwd p : Str} (h : p.take 1 = ['/']) :
    (abspathL cwd p).length ≤ p.length := by
  rw [abspathL_absolute h]; exact normpathL_length_le h

theorem abspathL_take_one {cwd p : Str} (h : p.take 1 = ['/']) :
    (abspathL cwd p).take 1 = ['/'] := by
  rw [abspathL_absolute h]; exact normpathL_take_one h

theorem take_one_append_cons {p q : Str} (h : p.take 1 = ['/']) :
    (p ++ q).take 1 = ['/'] := by
  obtain ⟨rest, rfl⟩ := cons_of_take_one h
  simp

theorem take_one_take {p : Str} (h : p.take 1 = ['/']) (n : Nat) (hn : 1 ≤ n) :
    (p.take n).take 1 = ['/'] := by
  rw [List.take_take]
  have : min 1 n = 1 := by omega
  rw [this, h]

/- ## Inversion lemmas for the `downloadFile` stages -/

theorem abspathL_cwd_abs {cwd : Str} (hcwd : cwd.take 1 = ['/']) (p : Str) :
    (abspathL cwd p).take 1 = ['/'] := by
  unfold abspathL
  apply normpathL_take_one
  unfold joinPath
  split
  · assumption
  · split
    · rename_i hsp
      rcases hsp with h | h
      · subst h; simp at hcwd
      · exact take_one_append_cons hcwd
    · exact take_one_append_cons hcwd

theorem sanitizeStage_ok {cwd folder fn df fn' dest : Str} {w : Bool}
    (h : sanitizeStage cwd folder fn = .ok (df, fn', dest, w)) :
    (∃ q, df = abspathL cwd q) ∧ dest = abspathL cwd (df ++ '/' :: fn') := by
  unfold sanitizeStage at h
  simp only [bind, Except.bind, pure, Except.pure] at h
  split at h
  · exact Except.noConfusion h
  · split at h
    · exact Except.noConfusion h
    · split at h
      · split at h
        · exact Except.noConfusion h
        · cases h
          exact ⟨⟨_, rfl⟩, rfl⟩
      · cases h
        exact ⟨⟨_, rfl⟩, rfl⟩

/-- Inversion of a successful `downloadFile` run into its stages. -/
theorem downloadFile_ok_shape {debug : Bool} {cwd : Str} {fs : List Str}
    {extMap : ExtMap} {ct cd : Option Str} {folder name : Str}
    {effs : List FsEff} {r : DLRes}
    (hok : downloadFile debug cwd fs extMap ct cd folder name = .ok (effs, r)) :
    ∃ filename ext df1 fn1 dest1 w,
      get_filename cd name = .ok filename ∧
      resolveExt extMap ct = .ok ext ∧
      sanitizeStage cwd folder (filename ++ '.' :: ext) = .ok (df1, fn1, dest1, w) ∧
      r.destFolder = (truncStage cwd df1 fn1 dest1).1 ∧
      r.fullFn = (renameStage cwd fs (truncStage cwd df1 fn1 dest1).1 fn1
        (truncStage cwd df1 fn1 dest1).2 ext).1 ∧
      r.dest = (renameStage cwd fs (truncStage cwd df1 fn1 dest1).1 fn1
        (truncStage cwd df1 fn1 dest1).2 ext).2 ∧
      r.charWarned = w ∧
      (r.lenWarned = false → dest1 = r.dest) ∧
      effectsStage debug cwd fs (truncStage cwd df1 fn1 dest1).1 dest1
        (renameStage cwd fs (truncStage cwd df1 fn1 dest1).1 fn1
          (truncStage cwd df1 fn1 dest1).2 ext).2 = .ok effs := by
  unfold downloadFile at hok
  simp only [bind, Except.bind, pure, Except.pure, Functor.map, Except.map] at hok
  split at hok
  · exact Except.noConfusion hok
  · rename_i filename hgf
    split at hok
    · exact Except.noConfusion hok
    · rename_i ext hre
      split at hok
      · exact Except.noConfusion hok
      · rename_i q hsan
        obtain ⟨df1, fn1, dest1, w⟩ := q
        split at hok
        · exact Except.noConfusion hok
        · rename_i es heff
          simp only [Except.ok.injEq, Prod.mk.injEq] at hok
          obtain ⟨h1, h2⟩ := hok
          subst h1
          refine ⟨filename, ext, df1, fn1, dest1, w, hgf, hre, hsan, ?_⟩
          rw [← h2]
          refine ⟨rfl, rfl, rfl, rfl, ?_, heff⟩
          intro hl
          simp only [decide_not] at hl
          simpa using hl

/-- C2 (amended): the final folder component never exceeds
`MAX_FOLDER_NAME_LEN`; the final destination never exceeds the larger
of `MAX_FILE_NAME_LEN` and `MAX_FOLDER_NAME_LEN + 1` plus the length of
the final filename — the synthetic-rename fallback re-appends the
resolved extension, so the 259 ceiling holds only when `rn<i>` plus the
extension fits in the `MAX_FILE_NAME_LEN - MAX_FOLDER_NAME_LEN - 1 = 14`
character budget. -/
theorem c2_sanitizer_length_bounds {debug : Bool} {cwd : Str} {fs : List Str}
    {extMap : ExtMap} {ct cd : Option Str} {folder name : Str}
    {effs : List FsEff} {r : DLRes}
    (hcwd : cwd.take 1 = ['/'])
    (hok : downloadFile debug cwd fs extMap ct cd folder name = .ok (effs, r)) :
    r.destFolder.length ≤ MAX_FOLDER_NAME_LEN ∧
    r.dest.length ≤ max MAX_FILE_NAME_LEN (MAX_FOLDER_NAME_LEN + 1 + r.fullFn.length) := by
  obtain ⟨filename, ext, df1, fn1, dest1, w, -, -, hsan, hdf, hfn, hdest, -, -, -⟩ :=
    downloadFile_ok_shape hok
  obtain ⟨⟨q, hdf1⟩, -⟩ := sanitizeStage_ok hsan
  have hdf1abs : df1.take 1 = ['/'] := by
    rw [hdf1]; exact abspathL_cwd_abs hcwd q
  have h244 : 1 ≤ MAX_FOLDER_NAME_LEN := by decide
  have hdf2 : (truncStage cwd df1 fn1 dest1).1.length ≤ MAX_FOLDER_NAME_LEN ∧
      (truncStage cwd df1 fn1 dest1).1.take 1 = ['/'] := by
    unfold truncStage
    split
    · refine ⟨?_, take_one_take hdf1abs _ h244⟩
      simp only [List.length_take]
      omega
    · rename_i hle
      dsimp only
      exact ⟨by omega, hdf1abs⟩
  constructor
  · rw [hdf]; exact hdf2.1
  · rw [hdest, hfn]
    unfold renameStage
    split
    · refine le_trans ?_ (le_max_right _ _)
      dsimp only
      have habs : ((truncStage cwd df1 fn1 dest1).1 ++
          '/' :: ("rn".toList ++ natToStr (firstFree fs (truncStage cwd df1 fn1 dest1).1) ++
            '.' :: ext)).take 1 = ['/'] := take_one_append_cons hdf2.2
      have hlen := @abspathL_length_le cwd _ habs
      simp only [List.length_append, List.length_cons] at hlen
      have := hdf2.1
      simp only [List.length_append, List.length_cons]
      omega
    · rename_i hle
      refine le_trans ?_ (le_max_left _ _)
      dsimp only
      omega

/-- A media-type table with the usual `pdf` entry, used in witnesses. -/
def pdfExtMap : ExtMap := fun m =>
  if m = "application/pdf".toList then some (some "pdf".toList) else none

/-- A media-type table whose `pdf` entry carries a 12-character
extension, used in the C2 counterexample. -/
def c2Map : ExtMap := fun m =>
  if m = "application/pdf".toList then some (some (List.replicate 12 'a')) else none

/-- A 261-character intended destination folder. -/
def c2Folder : Str := '/' :: List.replicate 260 'a'

/-- The truncated folder exists, so the side-car append succeeds. -/
def c2Fs : List Str := ['/' :: List.replicate 243 'a']

/-- C2 counterexample: with a 12-character extension in the media-type
table, a 261-character folder is truncated to `MAX_FOLDER_NAME_LEN` and
the synthetic-rename fallback (`rn1` plus the re-appended extension)
still yields a 261-character destination path, exceeding the
`MAX_FILE_NAME_LEN = 259` ceiling the claim asserts for every input. -/
theorem c2_counterexample :
    (downloadFile true "/".toList c2Fs c2Map (some "application/pdf".toList) none
        c2Folder "doc".toList).toOption.map (fun p => p.2.dest.length) = some 261 ∧
    MAX_FILE_NAME_LEN < 261 := by
  constructor
  · set_option maxRecDepth 10000 in decide
  · decide

/-- Witness for the amended C2 theorem at a concrete small run. -/
theorem c2_sanitizer_length_bounds_witness :
    (⟨"/c/doc.pdf".toList, "/c".toList, "doc.pdf".toList, false, false⟩ : DLRes).destFolder.length ≤
        MAX_FOLDER_NAME_LEN ∧
    (⟨"/c/doc.pdf".toList, "/c".toList, "doc.pdf".toList, false, false⟩ : DLRes).dest.length ≤
      max MAX_FILE_NAME_LEN (MAX_FOLDER_NAME_LEN + 1 +
        (⟨"/c/doc.pdf".toList, "/c".toList, "doc.pdf".toList, false, false⟩ : DLRes).fullFn.length) :=
  c2_sanitizer_length_bounds (by decide)
    (by rfl :
      downloadFile true "/".toList ["/c".toList] pdfExtMap (some "application/pdf".toList)
        none "/c".toList "doc".toList =
        .ok ([], ⟨"/c/doc.pdf".toList, "/c".toList, "doc.pdf".toList, false, false⟩))

/- ## Cleanliness lemmas for the forbidden-character claim -/

theorem forbiddenSub_clean (s : Str) : ∀ c ∈ forbiddenSub s, isForbiddenChar c = false := by
  intro c hc
  have := List.of_mem_filter hc
  simpa using this

theorem clean_of_digit {c : Char} (h : c.isDigit = true) : isForbiddenChar c = false := by
  by_contra hc
  have h7 : isForbiddenChar c = true := by simpa using hc
  simp only [isForbiddenChar, Bool.or_eq_true, decide_eq_true_eq] at h7
  rcases h7 with ((((((h' | h') | h') | h') | h') | h') | h') <;> subst h' <;> simp at h

theorem clean_slash : isForbiddenChar '/' = false := by decide

theorem clean_dot : isForbiddenChar '.' = false := by decide

/-- Cleanliness is preserved by `abspath` when the working directory is
clean. -/
theorem abspathL_clean {cwd p : Str}
    (hcwd : ∀ c ∈ cwd, isForbiddenChar c = false)
    (hp : ∀ c ∈ p, isForbiddenChar c = false) :
    ∀ c ∈ abspathL cwd p, isForbiddenChar c = false := by
  intro c hc
  rcases mem_abspathL c hc with h | h | h | h
  · exact hcwd c h
  · exact hp c h
  · subst h; exact clean_slash
  · subst h; exact clean_dot

theorem clean_append {a b : Str}
    (ha : ∀ c ∈ a, isForbiddenChar c = false)
    (hb : ∀ c ∈ b, isForbiddenChar c = false) :
    ∀ c ∈ a ++ b, isForbiddenChar c = false := by
  intro c hc
  rcases List.mem_append.mp hc with h | h
  · exact ha c h
  · exact hb c h

theorem clean_cons {d : Char} {b : Str} (hd : isForbiddenChar d = false)
    (hb : ∀ c ∈ b, isForbiddenChar c = false) :
    ∀ c ∈ d :: b, isForbiddenChar c = false := by
  intro c hc
  rcases List.mem_cons.mp hc with h | h
  · subst h; exact hd
  · exact hb c h

/-- The stripping branch of the sanitizer: everything is rebuilt from
forbidden-character-stripped parts. -/
theorem sanitizeStage_warned {cwd folder fn df fn' dest : Str}
    (h : sanitizeStage cwd folder fn = .ok (df, fn', dest, true)) :
    (∃ rdf, df = abspathL cwd (forbiddenSub rdf)) ∧ fn' = forbiddenSub fn ∧
      dest = abspathL cwd (df ++ '/' :: fn') := by
  unfold sanitizeStage at h
  simp only [bind, Except.bind, pure, Except.pure] at h
  split at h
  · exact Except.noConfusion h
  · split at h
    · exact Except.noConfusion h
    · split at h
      · split at h
        · exact Except.noConfusion h
        · cases h
          exact ⟨⟨_, rfl⟩, rfl, rfl⟩
      · cases h

theorem resolveExt_ok {extMap : ExtMap} {ct : Option Str} {ext : Str}
    (h : resolveExt extMap ct = .ok ext) :
    ∃ m, extMap m = some (some ext) := by
  unfold resolveExt at h
  simp only [bind, Except.bind, pure, Except.pure] at h
  split at h
  · exact Except.noConfusion h
  · split at h
    · rename_i m hm
      cases h
      exact ⟨_, hm⟩
    · exact Except.noConfusion h

/-- With an unchanged destination, the effect stage appends nothing to
the side-car file. -/
theorem effectsStage_no_append {debug : Bool} {cwd : Str} {fs : List Str}
    {df orig dest : Str} {effs : List FsEff}
    (h : effectsStage debug cwd fs df orig dest = .ok effs) (heq : orig = dest) :
    ∀ p, FsEff.append p ∉ effs := by
  intro p hp
  unfold effectsStage at h
  rw [if_neg (by simp [heq])] at h
  simp only [bind, Except.bind, pure, Except.pure] at h
  cases h
  split at hp
  · rcases List.mem_append.mp hp with h' | h'
    · split at h' <;> simp at h'
    · simp at h'
  · split at hp <;> simp at hp

/-- C3 (amended): whenever the sanitizer's stripping fired (the
relative path changed under stripping, which is exactly when the
warning is printed), the final destination path contains none of the
characters of `forbidden_fn_chars_re` — `: * ? " < > |` (note: `"` is
stripped although the spec's list omits it, while backslash and slash
are not in the class at all); and character stripping alone records no
side-car mapping entry — the append happens only for length-based
renames. -/
theorem c3_sanitizer_strips_forbidden {debug : Bool} {cwd : Str} {fs : List Str}
    {extMap : ExtMap} {ct cd : Option Str} {folder name : Str}
    {effs : List FsEff} {r : DLRes}
    (hcwd : ∀ c ∈ cwd, isForbiddenChar c = false)
    (hext : ∀ m e, extMap m = some (some e) → ∀ c ∈ e, isForbiddenChar c = false)
    (hok : downloadFile debug cwd fs extMap ct cd folder name = .ok (effs, r))
    (hwarn : r.charWarned = true) :
    (∀ c ∈ r.dest, isForbiddenChar c = false) ∧
    (r.lenWarned = false → ∀ p, FsEff.append p ∉ effs) := by
  obtain ⟨filename, ext, df1, fn1, dest1, w, -, hre, hsan, hdf, hfn, hdest, hcw, hlw, heff⟩ :=
    downloadFile_ok_shape hok
  have hw : w = true := by rw [← hcw]; exact hwarn
  subst hw
  obtain ⟨⟨rdf, hdf1⟩, hfn1, hdest1⟩ := sanitizeStage_warned hsan
  obtain ⟨m, hm⟩ := resolveExt_ok hre
  have hextclean : ∀ c ∈ ext, isForbiddenChar c = false := hext m ext hm
  have hdf1clean : ∀ c ∈ df1, isForbiddenChar c = false := by
    rw [hdf1]; exact abspathL_clean hcwd (forbiddenSub_clean rdf)
  have hfn1clean : ∀ c ∈ fn1, isForbiddenChar c = false := by
    rw [hfn1]; exact forbiddenSub_clean _
  have hdf2clean : ∀ c ∈ (truncStage cwd df1 fn1 dest1).1, isForbiddenChar c = false := by
    unfold truncStage
    split
    · dsimp only
      exact fun c hc => hdf1clean c (List.mem_of_mem_take hc)
    · dsimp only
      exact hdf1clean
  have hdest2clean : ∀ c ∈ (truncStage cwd df1 fn1 dest1).2, isForbiddenChar c = false := by
    unfold truncStage
    split
    · dsimp only
      exact abspathL_clean hcwd
        (clean_append (fun c hc => hdf1clean c (List.mem_of_mem_take hc))
          (clean_cons clean_slash hfn1clean))
    · dsimp only
      rw [hdest1]
      exact abspathL_clean hcwd
        (clean_append hdf1clean (clean_cons clean_slash hfn1clean))
  have hrnclean : ∀ c ∈ ("rn".toList : Str), isForbiddenChar c = false := by decide
  constructor
  · rw [hdest]
    unfold renameStage
    split
    · dsimp only
      exact abspathL_clean hcwd
        (clean_append hdf2clean
          (clean_cons clean_slash
            (clean_append
              (clean_append hrnclean
                (fun c hc => clean_of_digit (natToStr_digits _ c hc)))
              (clean_cons clean_dot hextclean))))
    · dsimp only
      exact hdest2clean
  · intro hl
    have h1 : dest1 = r.dest := hlw hl
    rw [hdest] at h1
    exact effectsStage_no_append heff h1

/-- The pdf table only resolves the clean extension `pdf`. -/
theorem pdfExtMap_clean : ∀ m e, pdfExtMap m = some (some e) →
    ∀ c ∈ e, isForbiddenChar c = false := by
  intro m e h
  unfold pdfExtMap at h
  split at h
  · simp only [Option.some.injEq] at h
    subst h
    decide
  · exact Option.noConfusion h

/-- Does the effect list contain a side-car append? -/
def hasAppend (l : List FsEff) : Bool :=
  l.any fun e => match e with | FsEff.append _ => true | _ => false

/-- C3 counterexample: for the display name `a:b` the sanitizer strips
the colon and prints the warning (`charWarned`), yet no side-car append
is performed — the run's only effect is the file write.  The claim's
"a mapping entry is recorded whenever output differs" is false. -/
theorem c3_counterexample :
    downloadFile false "/".toList ["/c".toList] pdfExtMap (some "application/pdf".toList)
        none "/c".toList "a:b".toList =
      .ok ([FsEff.write "/c/ab.pdf".toList],
        ⟨"/c/ab.pdf".toList, "/c".toList, "ab.pdf".toList, true, false⟩) ∧
    hasAppend [FsEff.write "/c/ab.pdf".toList] = false := by
  exact ⟨by rfl, by decide⟩

/-- Witness for the amended C3 theorem at the `a:b` run. -/
theorem c3_sanitizer_strips_forbidden_witness :
    (∀ c ∈ (⟨"/c/ab.pdf".toList, "/c".toList, "ab.pdf".toList, true, false⟩ : DLRes).dest,
        isForbiddenChar c = false) ∧
    ((⟨"/c/ab.pdf".toList, "/c".toList, "ab.pdf".toList, true, false⟩ : DLRes).lenWarned = false →
      ∀ p, FsEff.append p ∉ [FsEff.write "/c/ab.pdf".toList]) :=
  c3_sanitizer_strips_forbidden (by decide) pdfExtMap_clean
    (by rfl :
      downloadFile false "/".toList ["/c".toList] pdfExtMap (some "application/pdf".toList)
        none "/c".toList "a:b".toList =
      .ok ([FsEff.write "/c/ab.pdf".toList],
        ⟨"/c/ab.pdf".toList, "/c".toList, "ab.pdf".toList, true, false⟩))
    (by rfl)

/-- C4 (amended): when the destination is still over the ceiling, the
loop index is the least `i ≥ 1` whose bare name `rn<i>` does not exist
in the folder (every smaller index names an existing entry), and the
saved filename is `rn<i>` with the resolved extension re-appended —
a name whose existence the loop never checked. -/
theorem c4_rename_least_index {cwd : Str} {fs : List Str} {df fn dest ext : Str}
    (hlong : dest.length > MAX_FILE_NAME_LEN) :
    (renameStage cwd fs df fn dest ext).1 =
      "rn".toList ++ natToStr (firstFree fs df) ++ '.' :: ext ∧
    rnPath df (firstFree fs df) ∉ fs ∧
    (∀ j, 1 ≤ j → j < firstFree fs df → rnPath df j ∈ fs) := by
  refine ⟨?_, firstFree_free fs df, firstFree_min fs df⟩
  unfold renameStage
  rw [if_pos hlong]

/-- The folder for the C4 counterexample (it exists on disk). -/
def c4Folder : Str := '/' :: List.replicate 243 'a'

/-- Filesystem state for the C4 counterexample: the folder itself plus
a previously saved `rn1.pdf`. -/
def c4Fs : List Str := [c4Folder, c4Folder ++ "/rn1.pdf".toList]

/-- C4 counterexample: `rn1.pdf` already exists in the folder but the
loop only probes the bare `rn1`, so the run picks `i = 1` and writes to
the existing `rn1.pdf` — overwriting it, contrary to the claim that
colliding synthetic names never overwrite an existing file. -/
theorem c4_counterexample :
    (downloadFile false "/".toList c4Fs pdfExtMap (some "application/pdf".toList) none
        c4Folder (List.replicate 30 'd')).toOption.map
      (fun p => (p.2.fullFn, decide (p.2.dest ∈ c4Fs), decide (FsEff.write p.2.dest ∈ p.1))) =
      some ("rn1.pdf".toList, true, true) := by
  set_option maxRecDepth 10000 in decide

/-- Witness for the amended C4 theorem: with `rn1` taken, the loop
picks 2. -/
theorem c4_rename_least_index_witness :
    (renameStage "/".toList ["/c/rn1".toList] "/c".toList "f.pdf".toList
        (List.replicate 260 'x') "pdf".toList).1 =
      "rn".toList ++ natToStr (firstFree ["/c/rn1".toList] "/c".toList) ++ '.' :: "pdf".toList ∧
    rnPath "/c".toList (firstFree ["/c/rn1".toList] "/c".toList) ∉ ["/c/rn1".toList] ∧
    (∀ j, 1 ≤ j → j < firstFree ["/c/rn1".toList] "/c".toList →
      rnPath "/c".toList j ∈ ["/c/rn1".toList]) :=
  c4_rename_least_index (by set_option maxRecDepth 2000 in decide)

/-- C5 (code bug): a media type absent from `FILE_EXT_MAP` (left), or
one mapped to the no-extension marker `None` (right), reaches the
unknown-type warning whose f-string names the undefined variable
`content_type`; the call raises `NameError` with no file saved, instead
of saving without an extension and warning as specified. -/
theorem c5_unknown_media_type_crashes :
    downloadFile false "/".toList ["/c".toList] pdfExtMap
        (some "application/x-unknown".toList) none "/c".toList "doc".toList =
      .error .nameError ∧
    downloadFile false "/".toList ["/c".toList]
        (fun m => if m = "application/x-none".toList then some none else none)
        (some "application/x-none".toList) none "/c".toList "doc".toList =
      .error .nameError :=
  ⟨rfl, rfl⟩

/-- With the debug flag set, the effect stage can only append to the
side-car file: the directory creation and the destination write are
gated on the flag, the append is not. -/
theorem effectsStage_debug_appends {cwd : Str} {fs : List Str}
    {df orig dest : Str} {effs : List FsEff}
    (h : effectsStage true cwd fs df orig dest = .ok effs) :
    ∀ e ∈ effs, ∃ p, e = FsEff.append p := by
  unfold effectsStage at h
  have hfalse : (true = false) = False := by simp
  simp only [hfalse, and_false, or_false, if_false, bind, Except.bind, pure,
    Except.pure] at h
  split at h
  · split at h
    · cases h
      intro e he
      simp only [List.nil_append, List.mem_singleton] at he
      exact ⟨_, he⟩
    · exact Except.noConfusion h
  · cases h
    intro e he
    simp at he

/-- C1 (amended): with the debug flag set, the shared binary-download
path (`downloadFile`) creates no directory and writes no destination
file — every effect it emits is the un-gated side-car append; the
indirection-page helper still writes its `ouput.txt` dump for every
Learn URL, and the URL-shortcut handler still creates directories and
writes the shortcut file, with no debug check at all. -/
theorem c1_debug_gating :
    (∀ (cwd : Str) (fs : List Str) (extMap : ExtMap) (ct cd : Option Str)
        (folder name : Str) (effs : List FsEff) (r : DLRes),
      downloadFile true cwd fs extMap ct cd folder name = .ok (effs, r) →
        ∀ e ∈ effs, ∃ p, e = FsEff.append p) ∧
    (∀ url page : Str, isLearnUrl url = true →
        FsEff.write "ouput.txt".toList ∈ (extract_pdf_url url page).1) ∧
    (∀ (cwd : Str) (fs : List Str) (page td nm : Str) (effs : List FsEff)
        (d : Str) (w : Bool),
      download_url cwd fs page td nm = .ok (effs, d, w) → FsEff.write d ∈ effs) := by
  refine ⟨?_, ?_, ?_⟩
  · intro cwd fs extMap ct cd folder name effs r hok
    obtain ⟨filename, ext, df1, fn1, dest1, w, -, -, -, -, -, -, -, -, heff⟩ :=
      downloadFile_ok_shape hok
    exact effectsStage_debug_appends heff
  · intro url page h
    unfold extract_pdf_url
    rw [if_pos h]
    simp
  · intro cwd fs page td nm effs d w h
    unfold download_url at h
    simp only [bind, Except.bind, pure, Except.pure] at h
    split at h
    · exact Except.noConfusion h
    · split at h
      · exact Except.noConfusion h
      · split at h
        · exact Except.noConfusion h
        · simp only [Except.ok.injEq, Prod.mk.injEq] at h
          obtain ⟨he, hd, -⟩ := h
          rw [← he, ← hd]
          exact List.mem_append.mpr (Or.inr (List.mem_singleton.mpr rfl))

/-- C1 counterexample: the source sets `DEBUG = True`, yet the
URL-shortcut handler creates the destination directory and writes the
shortcut file — it never consults the flag, so "debug suppresses all
filesystem writes" is false. -/
theorem c1_counterexample :
    DEBUG = true ∧
    download_url "/".toList []
        "<div role=\"main\"><h2>My Link</h2><a href=\"http://t/x\"".toList
        "/c".toList "nm".toList =
      .ok ([FsEff.mkdir "/c/Single Files".toList,
            FsEff.write "/c/Single Files/My Link.url".toList],
           "/c/Single Files/My Link.url".toList, false) ∧
    FsEff.write "/c/Single Files/My Link.url".toList ∈
      [FsEff.mkdir "/c/Single Files".toList,
       FsEff.write "/c/Single Files/My Link.url".toList] := by
  refine ⟨rfl, by rfl, by simp⟩

/-- Witness for the amended C1 theorem, at a debug-mode run whose only
effect is the side-car append. -/
theorem c1_debug_gating_witness :
    ∃ p, FsEff.append "/c/OrigFNames.txt".toList = FsEff.append p :=
  c1_debug_gating.1 "/".toList ["/c".toList] pdfExtMap (some "application/pdf".toList) none
    "/c".toList (List.replicate 300 'd') [FsEff.append "/c/OrigFNames.txt".toList]
    ⟨"/c/rn1.pdf".toList, "/c".toList, "rn1.pdf".toList, false, true⟩
    (by set_option maxRecDepth 4000 in rfl)
    (FsEff.append "/c/OrigFNames.txt".toList) (by simp)

/- ## Scan lemmas for the regex combinators -/

theorem litP_append (lit s : Str) : litP lit (lit ++ s) = some s := by
  induction lit with
  | nil => rfl
  | cons l lt ih => simp [litP, ih]

theorem litP_some_eq {lit s after : Str} (h : litP lit s = some after) :
    s = lit ++ after := by
  induction lit generalizing s with
  | nil => simp [litP] at h; simp [h]
  | cons l lt ih =>
    cases s with
    | nil => simp [litP] at h
    | cons c cs =>
      simp only [litP] at h
      split at h
      · rename_i heq
        subst heq
        simp [ih h]
      · exact Option.noConfusion h

/-- A literal-mismatch check that is settled inside `t` itself, hence
independent of whatever follows `t`. -/
def litMismatch : Str → Str → Bool
  | [], _ => false
  | _ :: _, [] => false
  | l :: lt, c :: t => if l = c then litMismatch lt t else true

theorem litMismatch_none {lit t : Str} (h : litMismatch lit t = true) (s : Str) :
    litP lit (t ++ s) = none := by
  induction lit generalizing t with
  | nil => simp [litMismatch] at h
  | cons l lt ih =>
    cases t with
    | nil => simp [litMismatch] at h
    | cons c t' =>
      simp only [litMismatch] at h
      simp only [List.cons_append, litP]
      split at h
      · rename_i heq
        rw [if_pos heq]
        exact ih h
      · rename_i heq
        rw [if_neg heq]

theorem mismatch_of_ne_head {l0 : Char} {lt a : Str}
    (h : ∀ c ∈ a, c ≠ l0) : ∀ i < a.length, litMismatch (l0 :: lt) (a.drop i) = true := by
  intro i hi
  have : a.drop i ≠ [] := by
    intro hnil
    rw [List.drop_eq_nil_iff] at hnil
    omega
  cases hd : a.drop i with
  | nil => exact absurd hd this
  | cons c t =>
    have hc : c ∈ a := by
      have : c ∈ a.drop i := by rw [hd]; exact List.mem_cons_self c t
      exact List.mem_of_mem_drop this
    simp only [litMismatch]
    rw [if_neg (fun he => h c hc he.symm)]

/-- Scanning `.*?lit` past a stretch where the literal can nowhere
match. -/
theorem lazyUpto_skip {lit : Str} {k : Str → Option α} (a : Str) (s : Str)
    (hnl : ∀ c ∈ a, c ≠ '\n')
    (hm : ∀ i < a.length, litMismatch lit (a.drop i) = true) :
    lazyUpto lit k (a ++ s) = lazyUpto lit k s := by
  induction a with
  | nil => rfl
  | cons c a' ih =>
    have h0 : litP lit ((c :: a') ++ s) = none := by
      have := litMismatch_none (hm 0 (by simp)) s
      simpa using this
    rw [List.cons_append]
    simp only [lazyUpto]
    rw [show litP lit (c :: (a' ++ s)) = none from by simpa using h0]
    rw [if_neg (by exact hnl c (List.mem_cons_self c a'))]
    exact ih (fun x hx => hnl x (List.mem_cons_of_mem _ hx))
      (fun i hi => by simpa using hm (i + 1) (by simpa using Nat.succ_lt_succ hi))

theorem lazyUpto_stop {lit : Str} {k : Str → Option α} {c : Char} {rest after : Str}
    {r : α} (hl : litP lit (c :: rest) = some after) (hk : k after = some r) :
    lazyUpto lit k (c :: rest) = some r := by
  simp [lazyUpto, hl, hk]

/-- Scanning `(.*?)lit` past a stretch where the literal can nowhere
match: the stretch joins the capture. -/
theorem lazyCapUpto_skip {lit : Str} (a : Str) (s : Str) (k : Str → Str → Option α)
    (hnl : ∀ c ∈ a, c ≠ '\n')
    (hm : ∀ i < a.length, litMismatch lit (a.drop i) = true) :
    lazyCapUpto lit k (a ++ s) = lazyCapUpto lit (fun cap r => k (a ++ cap) r) s := by
  induction a generalizing k with
  | nil => simp
  | cons c a' ih =>
    have h0 : litP lit ((c :: a') ++ s) = none := by
      have := litMismatch_none (hm 0 (by simp)) s
      simpa using this
    rw [List.cons_append]
    simp only [lazyCapUpto]
    rw [show litP lit (c :: (a' ++ s)) = none from by simpa using h0]
    rw [if_neg (by exact hnl c (List.mem_cons_self c a'))]
    show lazyCapUpto lit (fun cap r => k (c :: cap) r) (a' ++ s) =
      lazyCapUpto lit (fun cap r => k (c :: a' ++ cap) r) s
    rw [ih (fun cap r => k (c :: cap) r)
      (fun x hx => hnl x (List.mem_cons_of_mem _ hx))
      (fun i hi => by simpa using hm (i + 1) (by simpa using Nat.succ_lt_succ hi))]
    rfl

theorem lazyCapUpto_stop {lit : Str} {k : Str → Str → Option α} {c : Char}
    {rest after : Str} {r : α} (hl : litP lit (c :: rest) = some after)
    (hk : k [] after = some r) :
    lazyCapUpto lit k (c :: rest) = some r := by
  simp [lazyCapUpto, hl, hk]

/-- Head of the remainder fails the predicate (or the input ends). -/
def headFails (pred : Char → Bool) : Str → Prop
  | [] => True
  | c :: _ => pred c = false

/-- A greedy class star consumes exactly the maximal run when the
continuation accepts it. -/
theorem greedyCapStar_maximal {pred : Char → Bool} (a : Str) {s : Str}
    (k : Str → Str → Option α) {r : α}
    (ha : ∀ c ∈ a, pred c = true) (hs : headFails pred s)
    (hk : k a s = some r) :
    greedyCapStar pred k (a ++ s) = some r := by
  induction a generalizing k with
  | nil =>
    cases s with
    | nil => simpa [greedyCapStar] using hk
    | cons c rest =>
      simp only [List.nil_append, greedyCapStar]
      rw [if_neg (by simp [headFails] at hs; simp [hs])]
      exact hk
  | cons c a' ih =>
    rw [List.cons_append]
    simp only [greedyCapStar]
    rw [if_pos (ha c (List.mem_cons_self c a'))]
    rw [ih (fun cap r2 => k (c :: cap) r2)
      (fun x hx => ha x (List.mem_cons_of_mem _ hx)) hk]

/-- A greedy `(\d+)`-style plus consumes exactly the maximal nonempty
run when the continuation accepts it. -/
theorem greedyCapPlus_maximal {pred : Char → Bool} {d : Char} (a : Str) {s : Str}
    (k : Str → Str → Option α) {r : α}
    (hd : pred d = true) (ha : ∀ c ∈ a, pred c = true) (hs : headFails pred s)
    (hk : k (d :: a) s = some r) :
    greedyCapPlus pred k ((d :: a) ++ s) = some r := by
  rw [List.cons_append]
  simp only [greedyCapPlus]
  rw [if_pos hd]
  exact greedyCapStar_maximal a (fun cap r2 => k (d :: cap) r2) ha hs hk

theorem reSearch_head {m : Str → Option α} {c : Char} {rest : Str} {r : α}
    (h : m (c :: rest) = some r) : reSearch m (c :: rest) = some r := by
  simp [reSearch, h]

theorem lazyUpto_here {lit : Str} {k : Str → Option α} {after : Str} {r : α} (s : Str)
    (hs : s ≠ []) (hl : litP lit s = some after) (hk : k after = some r) :
    lazyUpto lit k s = some r := by
  cases s with
  | nil => exact absurd rfl hs
  | cons c rest => exact lazyUpto_stop hl hk

theorem lazyCapUpto_here {lit : Str} {k : Str → Str → Option α} {after : Str} {r : α}
    (s : Str) (hs : s ≠ []) (hl : litP lit s = some after) (hk : k [] after = some r) :
    lazyCapUpto lit k s = some r := by
  cases s with
  | nil => exact absurd rfl hs
  | cons c rest => exact lazyCapUpto_stop hl hk

theorem natToStr_cons (n : Nat) :
    ∃ d ds, natToStr n = d :: ds ∧ isPyDigit d = true ∧ ∀ c ∈ ds, isPyDigit c = true := by
  cases hh : natToStr n with
  | nil => exact absurd hh (natToStr_ne_nil n)
  | cons d ds =>
    refine ⟨d, ds, rfl, ?_, ?_⟩
    · simpa [isPyDigit] using natToStr_digits n d (by rw [hh]; exact List.mem_cons_self _ _)
    · intro c hc
      simpa [isPyDigit] using natToStr_digits n c (by rw [hh]; exact List.mem_cons_of_mem _ hc)

theorem mismatch_of_ne_headq {lit a : Str} {l0 : Char} (hl : lit.head? = some l0)
    (h : ∀ c ∈ a, c ≠ l0) :
    ∀ i < a.length, litMismatch lit (a.drop i) = true := by
  cases lit with
  | nil => simp at hl
  | cons x lt =>
    simp only [List.head?] at hl
    cases hl
    exact mismatch_of_ne_head h

/-- C6 (amended): for every action URL (without a quote or newline) and
every numeric id, a landing page carrying the exact whitespace the
pattern demands — a space before `>` and a newline before the hidden
input — resolves to `action?id=<id>`.  The resolution is not
whitespace-independent: see the counterexample, where removing the
space makes the pattern fail and the handler raise. -/
theorem c6_folder_form_resolves (a : Str) (n : Nat)
    (hq : ∀ c ∈ a, c ≠ '"') (hnl : ∀ c ∈ a, c ≠ '\n') :
    download_folder_dlurl
      ("<form action=\"".toList ++ a ++
        "\" >\n<input type=\"hidden\" name=\"id\" value=\"".toList ++ natToStr n ++
        "\">".toList) =
      .ok (a ++ "?id=".toList ++ natToStr n) := by
  obtain ⟨d, ds, hnds, hd, hds⟩ := natToStr_cons n
  have hinner : ∀ act : Str,
      lazyUpto "name=\"id\" value=\"".toList
        (greedyCapPlus isPyDigit (fun num r =>
          (litP "\">".toList r).map (fun _ => (act, num))))
        ("<input type=\"hidden\" ".toList ++
          ("name=\"id\" value=\"".toList ++ ((d :: ds) ++ "\">".toList))) =
        some (act, d :: ds) := by
    intro act
    rw [lazyUpto_skip "<input type=\"hidden\" ".toList _ (by decide) (by decide)]
    apply lazyUpto_here _ (by simp) (litP_append _ _)
    apply greedyCapPlus_maximal ds _ hd hds (by simp [headFails, isPyDigit])
    have hfin : litP "\">".toList "\">".toList = some [] := by decide
    rw [hfin]
    rfl
  have hAt : folderFormAt
      ("<form".toList ++ ([' '] ++ ("action=\"".toList ++ (a ++
        ("\" >\n".toList ++ ("<input type=\"hidden\" ".toList ++
          ("name=\"id\" value=\"".toList ++ ((d :: ds) ++ "\">".toList)))))))) =
      some (a, d :: ds) := by
    unfold folderFormAt
    rw [litP_append]
    show lazyUpto "action=\"".toList _ ([' '] ++ _) = _
    rw [lazyUpto_skip [' '] _ (by decide) (by decide)]
    apply lazyUpto_here _ (by simp) (litP_append _ _)
    rw [lazyCapUpto_skip a _ _ hnl (mismatch_of_ne_headq (by rfl) hq)]
    apply lazyCapUpto_here _ (by simp) (litP_append _ _)
    show lazyUpto "name=\"id\" value=\"".toList
        (greedyCapPlus isPyDigit (fun num r =>
          (litP "\">".toList r).map (fun _ => (a ++ [], num))))
        ("<input type=\"hidden\" ".toList ++
          ("name=\"id\" value=\"".toList ++ ((d :: ds) ++ "\">".toList))) =
      some (a, d :: ds)
    simp only [List.append_nil]
    exact hinner a
  have hsearch : folderFormSearch
      ("<form".toList ++ ([' '] ++ ("action=\"".toList ++ (a ++
        ("\" >\n".toList ++ ("<input type=\"hidden\" ".toList ++
          ("name=\"id\" value=\"".toList ++ ((d :: ds) ++ "\">".toList)))))))) =
      some (a, d :: ds) :=
    reSearch_head hAt
  have hpg : ("<form action=\"".toList ++ a ++
        "\" >\n<input type=\"hidden\" name=\"id\" value=\"".toList ++ natToStr n ++
        "\">".toList : Str) =
      ("<form".toList ++ ([' '] ++ ("action=\"".toList ++ (a ++
        ("\" >\n".toList ++ ("<input type=\"hidden\" ".toList ++
          ("name=\"id\" value=\"".toList ++ ((d :: ds) ++ "\">".toList)))))))) := by
    rw [hnds]
    simp only [List.append_assoc]
    rfl
  rw [hpg]
  unfold download_folder_dlurl
  rw [hsearch, hnds]

/-- C6 counterexample: the identical form with the space before `>`
removed no longer matches `folder_re`, so the handler raises
`AttributeError` instead of resolving `action?id=42` — resolution is
not independent of the surrounding whitespace. -/
theorem c6_counterexample :
    download_folder_dlurl
      "<form action=\"http://x/d.php\">\n<input type=\"hidden\" name=\"id\" value=\"42\">".toList =
      .error .attributeError ∧
    download_folder_dlurl
      "<form action=\"http://x/d.php\" >\n<input type=\"hidden\" name=\"id\" value=\"42\">".toList =
      .ok "http://x/d.php?id=42".toList := by
  exact ⟨rfl, rfl⟩

/-- Witness for the amended C6 theorem. -/
theorem c6_folder_form_resolves_witness :
    download_folder_dlurl
      ("<form action=\"".toList ++ "http://x/d.php".toList ++
        "\" >\n<input type=\"hidden\" name=\"id\" value=\"".toList ++ natToStr 42 ++
        "\">".toList) =
      .ok ("http://x/d.php".toList ++ "?id=".toList ++ natToStr 42) :=
  c6_folder_form_resolves "http://x/d.php".toList 42 (by decide) (by decide)

/-- The claim's resource-table page, with the cell's ellipses filled in
with a concrete icon URL: the cell text keeps the claim's exact anchor,
icon suffix `f/pdf`, `alt="File"`, and the two spaces before the
display text. -/
def c7Page : Str :=
  ("<div role=\"main\"><span id=\"maincontent\"></span><table class=\"generaltable mod_index\">" ++
   "<tr><td class=\"cell c1\" style=\"text-align:left;\">" ++
   "<a href=\"/mod/resource/view.php?id=5\">" ++
   "<img src=\"https://learn.canterbury.ac.nz/theme/image.php/f/pdf\" alt=\"File\" />  Syllabus</a>" ++
   "</td></tr></table>\n</div>").toList

/-- C7 (amended): the cell yields exactly one descriptor with type
`file` and the claimed URL, but the display name is ` Syllabus` with a
leading space — `\s?` absorbs only one of the two spaces before the
text and `(.+)` captures the other. -/
theorem c7_resource_cell_descriptor :
    extract_download_info c7Page =
      .ok [(some "file".toList, "/mod/resource/view.php?id=5".toList, " Syllabus".toList)] := by
  set_option maxRecDepth 20000 in rfl

/-- C7 counterexample: the produced descriptor is not the claimed
`(file, /mod/resource/view.php?id=5, "Syllabus")` — the name differs by
the retained leading space. -/
theorem c7_counterexample :
    extract_download_info c7Page =
      .ok [(some "file".toList, "/mod/resource/view.php?id=5".toList, " Syllabus".toList)] ∧
    decide ((" Syllabus".toList : Str) = "Syllabus".toList) = false := by
  refine ⟨?_, by decide⟩
  set_option maxRecDepth 20000 in rfl

/- ## First-match characterisation of `re.search` -/

/-- `r` matches at position `s` of `t`, ending at `e`. -/
def MatchSpanAt (r : PyRegex) (t : Str) (s e : Nat) : Prop :=
  ∃ len, r (t.drop s) = some len ∧ e = s + len

/-- `(s, e)` is the first match of `r` in `t` at or after `pos`. -/
def FirstMatchFrom (r : PyRegex) (t : Str) (pos s e : Nat) : Prop :=
  pos ≤ s ∧ MatchSpanAt r t s e ∧ ∀ q, pos ≤ q → q < s → r (t.drop q) = none

theorem searchIdxAux_spec_some {m : PyRegex} {t : Str} :
    ∀ (s : Str) (pos a b : Nat), s = t.drop pos →
      searchIdxAux m s pos = some (a, b) → FirstMatchFrom m t pos a b := by
  intro s
  induction s with
  | nil =>
    intro pos a b hs h
    simp only [searchIdxAux] at h
    cases hm : m [] with
    | none => rw [hm] at h; simp at h
    | some len =>
      rw [hm] at h
      simp only [Option.some.injEq, Prod.mk.injEq] at h
      obtain ⟨ha, hb⟩ := h
      subst ha; subst hb
      exact ⟨le_refl _, ⟨len, by rw [← hs]; exact hm, rfl⟩,
        fun q h1 h2 => absurd h1 (by omega)⟩
  | cons c rest ih =>
    intro pos a b hs h
    simp only [searchIdxAux] at h
    cases hm : m (c :: rest) with
    | some len =>
      rw [hm] at h
      simp only [Option.some.injEq, Prod.mk.injEq] at h
      obtain ⟨ha, hb⟩ := h
      subst ha; subst hb
      exact ⟨le_refl _, ⟨len, by rw [← hs]; exact hm, rfl⟩,
        fun q h1 h2 => absurd h1 (by omega)⟩
    | none =>
      rw [hm] at h
      have hrest : rest = t.drop (pos + 1) := by
        have := congrArg List.tail hs
        simpa [List.tail_drop] using this
      obtain ⟨h1, h2, h3⟩ := ih (pos + 1) a b hrest h
      refine ⟨by omega, h2, ?_⟩
      intro q hq1 hq2
      rcases Nat.eq_or_lt_of_le hq1 with he | hlt
      · subst he; rw [← hs]; exact hm
      · exact h3 q hlt hq2

theorem searchIdxAux_spec_none {m : PyRegex} {t : Str} :
    ∀ (s : Str) (pos : Nat), s = t.drop pos →
      searchIdxAux m s pos = none → ∀ q, pos ≤ q → m (t.drop q) = none := by
  intro s
  induction s with
  | nil =>
    intro pos hs h q hq
    simp only [searchIdxAux] at h
    cases hm : m [] with
    | some len => rw [hm] at h; simp at h
    | none =>
      have hql : t.drop q = [] := by
        have hlen : t.length ≤ pos := by
          rw [← List.drop_eq_nil_iff]; exact hs.symm
        rw [List.drop_eq_nil_iff]; omega
      rw [hql]; exact hm
  | cons c rest ih =>
    intro pos hs h q hq
    simp only [searchIdxAux] at h
    cases hm : m (c :: rest) with
    | some len => rw [hm] at h; simp at h
    | none =>
      rw [hm] at h
      have hrest : rest = t.drop (pos + 1) := by
        have := congrArg List.tail hs
        simpa [List.tail_drop] using this
      rcases Nat.eq_or_lt_of_le hq with he | hlt
      · subst he; rw [← hs]; exact hm
      · exact ih (pos + 1) hrest h q hlt

theorem FirstMatchFrom_unique {r : PyRegex} {t : Str} {pos s e s' e' : Nat}
    (h1 : FirstMatchFrom r t pos s e) (h2 : FirstMatchFrom r t pos s' e') :
    s = s' ∧ e = e' := by
  obtain ⟨hp, ⟨len, hm, he⟩, hmin⟩ := h1
  obtain ⟨hp', ⟨len', hm', he'⟩, hmin'⟩ := h2
  have hss : s = s' := by
    rcases Nat.lt_trichotomy s s' with h | h | h
    · rw [hmin' s hp h] at hm; exact Option.noConfusion hm
    · exact h
    · rw [hmin s' hp' h] at hm'; exact Option.noConfusion hm'
  subst hss
  rw [hm] at hm'
  have : len = len' := Option.some.inj hm'
  omega

/-- C8: `extract_between_res` returns the text strictly between the end
of the first match of the start pattern and the start of the first
match of the end pattern at or after it; when either search fails —
including when the end pattern matches only before the start match — it
returns the absence value `none` rather than raising. -/
theorem c8_extract_between (t : Str) (r1 r2 : PyRegex) :
    (∀ s1 e1, FirstMatchFrom r1 t 0 s1 e1 →
      (∀ s2 e2, FirstMatchFrom r2 t e1 s2 e2 →
        extract_between_res t r1 r2 = some ((t.drop e1).take (s2 - e1))) ∧
      ((∀ q, e1 ≤ q → r2 (t.drop q) = none) →
        extract_between_res t r1 r2 = none)) ∧
    ((∀ q, r1 (t.drop q) = none) → extract_between_res t r1 r2 = none) := by
  constructor
  · intro s1 e1 hfm1
    cases hsf : searchFrom r1 t 0 with
    | none =>
      obtain ⟨-, ⟨len, hm, -⟩, -⟩ := hfm1
      rw [searchIdxAux_spec_none (t.drop 0) 0 rfl hsf s1 (by omega)] at hm
      exact Option.noConfusion hm
    | some p =>
      obtain ⟨a, b⟩ := p
      have hfm1' := searchIdxAux_spec_some (t.drop 0) 0 a b rfl hsf
      obtain ⟨-, hb⟩ := FirstMatchFrom_unique hfm1 hfm1'
      subst hb
      constructor
      · intro s2 e2 hfm2
        cases hsf2 : searchFrom r2 t e1 with
        | none =>
          obtain ⟨hp2, ⟨len, hm, -⟩, -⟩ := hfm2
          rw [searchIdxAux_spec_none (t.drop e1) e1 rfl hsf2 s2 hp2] at hm
          exact Option.noConfusion hm
        | some p2 =>
          obtain ⟨a2, b2⟩ := p2
          have hfm2' := searchIdxAux_spec_some (t.drop e1) e1 a2 b2 rfl hsf2
          obtain ⟨ha2, -⟩ := FirstMatchFrom_unique hfm2 hfm2'
          subst ha2
          unfold extract_between_res
          rw [hsf]
          dsimp only
          rw [hsf2]
      · intro hnone
        cases hsf2 : searchFrom r2 t e1 with
        | none =>
          unfold extract_between_res
          rw [hsf]
          dsimp only
          rw [hsf2]
        | some p2 =>
          obtain ⟨a2, b2⟩ := p2
          obtain ⟨hp2, ⟨len, hm, -⟩, -⟩ := searchIdxAux_spec_some (t.drop e1) e1 a2 b2 rfl hsf2
          rw [hnone a2 hp2] at hm
          exact Option.noConfusion hm
  · intro hnone
    cases hsf : searchFrom r1 t 0 with
    | none =>
      unfold extract_between_res
      rw [hsf]
    | some p =>
      obtain ⟨a, b⟩ := p
      obtain ⟨-, ⟨len, hm, -⟩, -⟩ := searchIdxAux_spec_some (t.drop 0) 0 a b rfl hsf
      rw [hnone a] at hm
      exact Option.noConfusion hm

/-- A compiled pure-literal pattern, for the C8 witness. -/
def litRe (lit : Str) : PyRegex := fun s => (litP lit s).map (fun _ => lit.length)

/-- Witness for C8 on a concrete text with two disjoint matches. -/
theorem c8_extract_between_witness :
    extract_between_res "xxabyyabzz".toList (litRe "ab".toList) (litRe "ab".toList) =
      some (("xxabyyabzz".toList.drop 4).take (6 - 4)) :=
  ((c8_extract_between "xxabyyabzz".toList (litRe "ab".toList) (litRe "ab".toList)).1 2 4
      ⟨by omega, ⟨2, by decide, rfl⟩, by intro q h1 h2; interval_cases q <;> decide⟩).1 6 8
      ⟨by omega, ⟨2, by decide, rfl⟩, by intro q h1 h2; interval_cases q <;> decide⟩

theorem dropWhile_append_of_all {p : Char → Bool} {e s : Str}
    (he : ∀ c ∈ e, p c = true) : (e ++ s).dropWhile p = s.dropWhile p := by
  induction e with
  | nil => rfl
  | cons c e' ih =>
    rw [List.cons_append, List.dropWhile_cons]
    rw [if_pos (he c (List.mem_cons_self c e'))]
    exact ih (fun x hx => he x (List.mem_cons_of_mem _ hx))

/-- The lazy capture of `fn_re` slides over dot-free text. -/
theorem fnLazyCap_skip {b : Str} (s : Str)
    (hb : ∀ c ∈ b, c ≠ '.' ∧ c ≠ '\n') :
    fnLazyCap (b ++ s) = (fnLazyCap s).map (b ++ ·) := by
  induction b with
  | nil => simp [Option.map_id']
  | cons c b' ih =>
    rw [List.cons_append]
    simp only [fnLazyCap]
    rw [if_neg (by
      intro hcc
      exact (hb c (List.mem_cons_self c b')).1 hcc.1)]
    rw [if_neg (hb c (List.mem_cons_self c b')).2]
    rw [ih (fun x hx => hb x (List.mem_cons_of_mem _ hx))]
    cases fnLazyCap s <;> simp

/-- The lazy capture of `fn_re` stops at a dot whose tail is a word run
followed by the closing quote. -/
theorem fnLazyCap_stop {e rest : Str} (he : ∀ c ∈ e, isPyWord c = true) :
    fnLazyCap ('.' :: (e ++ ('"' :: rest))) = some [] := by
  have ht : fnTailOk (e ++ ('"' :: rest)) = true := by
    unfold fnTailOk
    rw [dropWhile_append_of_all he, List.dropWhile_cons, if_neg (by simp [isPyWord])]
    rfl
  simp [fnLazyCap, ht]

theorem fnSearch_here {c : Char} {rest after cap : Str}
    (h1 : litP "filename=\"".toList (c :: rest) = some after)
    (h2 : fnLazyCap after = some cap) :
    fnSearch (c :: rest) = some cap := by
  show (match litP "filename=\"".toList (c :: rest) with
    | some after =>
      (match fnLazyCap after with
       | some cap => some cap
       | none => fnSearch rest)
    | none => fnSearch rest) = some cap
  rw [h1]
  dsimp only
  rw [h2]

/-- C10 (amended): for a Content-Disposition value
`filename="<base>.<ext>"` whose base contains no dot, the resolved
filename is the base with the server extension discarded,
percent-decoded and with `&amp;?` collapsed to `&`; when the header is
absent, the portal display name goes through the same two rewrites.
In general the truncation point is the first `.` whose tail up to the
closing quote is all word characters — the LAST dot for multi-dot
names, not the first (see the counterexample). -/
theorem c10_filename_truncation (b e ln : Str)
    (hb : ∀ c ∈ b, c ≠ '.' ∧ c ≠ '\n')
    (he : ∀ c ∈ e, isPyWord c = true) :
    get_filename (some ("filename=\"".toList ++ b ++ '.' :: (e ++ ['"']))) ln =
      .ok (ampSub (unquoteL b)) ∧
    get_filename none ln = .ok (ampSub (unquoteL ln)) := by
  constructor
  · have hsearch : fnSearch ("filename=\"".toList ++ (b ++ ('.' :: (e ++ ['"'])))) =
        some (b ++ []) := by
      apply fnSearch_here (litP_append _ _)
      rw [fnLazyCap_skip _ hb, fnLazyCap_stop he]
      rfl
    have harr : ("filename=\"".toList ++ b ++ '.' :: (e ++ ['"']) : Str) =
        "filename=\"".toList ++ (b ++ ('.' :: (e ++ ['"']))) := by
      simp [List.append_assoc]
    unfold get_filename
    dsimp only
    rw [harr, hsearch]
    simp
  · rfl

/-- C10 counterexample: for `filename="a.b.c"` the resolved name is
`a.b` — truncation happens at the last dot whose tail is word
characters, not at the first dot as claimed. -/
theorem c10_counterexample :
    get_filename (some "attachment; filename=\"a.b.c\"".toList) "nm".toList =
      .ok "a.b".toList ∧ decide (("a.b".toList : Str) = "a".toList) = false :=
  ⟨rfl, by decide⟩

/-- Witness for the amended C10 theorem. -/
theorem c10_filename_truncation_witness :
    get_filename (some ("filename=\"".toList ++ "My Report".toList ++
        '.' :: ("pdf".toList ++ ['"']))) "nm".toList =
      .ok (ampSub (unquoteL "My Report".toList)) ∧
    get_filename none "nm".toList = .ok (ampSub (unquoteL "nm".toList)) :=
  c10_filename_truncation "My Report".toList "pdf".toList "nm".toList (by decide) (by decide)

/-- C9 (amended): the header-only fetch dispatches exactly on the media
type — a non-`text/html` type uses the URL directly; a `text/html` type
goes through `extract_pdf_url`, which re-extracts the true link from
the sentence pattern `Click <a href="...">X.pdf</a> link to download
the file.` only for URLs on the Learn host; a `text/html` response at
any other host is also used directly, with no re-extraction (see the
counterexample). -/
theorem c9_file_indirection :
    (∀ (ct url page : Str), mediaTypeOf ct ≠ "text/html".toList →
      download_file_dlurl (some ct) url page = ([], .ok url)) ∧
    (∀ (ct url page : Str), mediaTypeOf ct = "text/html".toList → isLearnUrl url = false →
      download_file_dlurl (some ct) url page = ([], .ok url)) ∧
    (∀ (ct url h nm : Str), mediaTypeOf ct = "text/html".toList → isLearnUrl url = true →
      (∀ c ∈ h, c ≠ '"') → (∀ c ∈ h, c ≠ '\n') →
      (∀ c ∈ nm, c ≠ '.') → (∀ c ∈ nm, c ≠ '\n') →
      download_file_dlurl (some ct) url
        ("Click <a href=\"".toList ++ (h ++ ("\">".toList ++ (nm ++
          ".pdf</a> link to download the file.".toList)))) =
        ([FsEff.write "ouput.txt".toList], .ok h)) := by
  refine ⟨?_, ?_, ?_⟩
  · intro ct url page hct
    unfold download_file_dlurl
    dsimp only
    rw [if_neg hct]
  · intro ct url page hct hurl
    unfold download_file_dlurl
    dsimp only
    rw [if_pos hct]
    unfold extract_pdf_url
    rw [if_neg (by simp [hurl])]
  · intro ct url h nm hct hurl hqh hnlh hdnm hnlnm
    have hAt : pdfLinkAt
        ("Click <a href=\"".toList ++ (h ++ ("\">".toList ++ (nm ++
          ".pdf</a> link to download the file.".toList)))) = some (h, nm) := by
      unfold pdfLinkAt
      rw [litP_append]
      show lazyCapUpto "\">".toList _ (h ++ _) = _
      rw [lazyCapUpto_skip h _ _ hnlh (mismatch_of_ne_headq (by rfl) hqh)]
      apply lazyCapUpto_here _ (by simp) (litP_append _ _)
      show lazyCapUpto ".pdf</a> link to download the file.".toList
          (fun nm2 _ => some (h ++ [], nm2))
          (nm ++ ".pdf</a> link to download the file.".toList) = some (h, nm)
      simp only [List.append_nil]
      rw [lazyCapUpto_skip nm _ _ hnlnm (mismatch_of_ne_headq (by rfl) hdnm)]
      apply lazyCapUpto_here _ (by simp)
        (by decide : litP ".pdf</a> link to download the file.".toList
          ".pdf</a> link to download the file.".toList = some [])
      simp
    have hsearch : pdfLinkSearch
        ("Click <a href=\"".toList ++ (h ++ ("\">".toList ++ (nm ++
          ".pdf</a> link to download the file.".toList)))) = some (h, nm) :=
      reSearch_head hAt
    unfold download_file_dlurl
    dsimp only
    rw [if_pos hct]
    unfold extract_pdf_url
    rw [if_pos hurl]
    rw [hsearch]

/-- C9 counterexample: a `text/html` response at a non-Learn URL is not
treated as an indirection page — the original URL is returned even
though the page contains the download-sentence pattern pointing at a
different link. -/
theorem c9_counterexample :
    download_file_dlurl (some "text/html".toList) "https://example.com/x".toList
        "Click <a href=\"http://o/f.pdf\">f.pdf</a> link to download the file.".toList =
      ([], .ok "https://example.com/x".toList) ∧
    decide (("https://example.com/x".toList : Str) = "http://o/f.pdf".toList) = false :=
  ⟨rfl, by decide⟩

/-- Witness for the amended C9 theorem, on its Learn-host branch. -/
theorem c9_file_indirection_witness :
    download_file_dlurl (some "text/html; charset=utf-8".toList)
        "https://learn.canterbury.ac.nz/mod/resource/view.php?id=7".toList
        ("Click <a href=\"".toList ++ ("http://o/f".toList ++ ("\">".toList ++
          ("f".toList ++ ".pdf</a> link to download the file.".toList)))) =
      ([FsEff.write "ouput.txt".toList], .ok "http://o/f".toList) :=
  c9_file_indirection.2.2 "text/html; charset=utf-8".toList
    "https://learn.canterbury.ac.nz/mod/resource/view.php?id=7".toList
    "http://o/f".toList "f".toList (by decide) (by decide) (by decide) (by decide)
    (by decide) (by decide)
